import Mathlib
/-!
# Verification of the QRCLib finite-field polynomial arithmetic core

This file gives a shallow embedding of the Python sources of QRCLib
(`src/utils.py`, `src/kyber.py`, `src/dilithium.py`) and proves or refutes
the specification claims about them.

Conventions of the embedding:
* Python integers are `Nat` or `Int`; Python `%` on `Int` with a positive
  modulus is `Int.emod` (both return a representative in `[0, m)`).
* Python `//` on `Int` is `Int.fdiv` and `%` in general is `Int.fmod`
  (floor-division semantics, remainder takes the sign of the divisor).
* Fallible Python code (code that can raise) returns `Option`.
* Unbounded `while` loops are modelled with an explicit fuel argument that
  dominates the number of iterations actually performed.
* `secrets`-based randomness is modelled by an explicit entropy stream
  `Nat → Nat`; `secrets.randbelow k` applied to raw entropy `r` yields
  `r % k`, so the set of possible outputs is exactly `[0, k)`.
* `hashlib.sha256` is an external primitive; operations using it are
  parametrised by an arbitrary digest function `List Nat → List Nat`
  (a SHA-256 digest is 32 bytes, which appears as a hypothesis where used).
-/

/-! # Definitions

All definitions of the embedding come first; the theorems follow. -/

def pyPowModGo (m : Nat) : Nat → Nat → Nat → Nat → Nat
  | 0, _, _, acc => acc
  | fl+1, bb, ee, acc =>
    if ee = 0 then acc
    else pyPowModGo m fl (bb * bb % m) (ee / 2) (if ee % 2 = 1 then acc * bb % m else acc)

/-- Python `pow(b, e, m)` for a nonnegative exponent (`m > 0`). -/
def pyPowMod (b e m : Nat) : Nat := pyPowModGo m (e + 1) (b % m) e (1 % m)

def extended_gcd : Nat → Int → Int → Int × Int × Int
  | 0, _, b => (b, 0, 1)
  | fuel+1, a, b =>
    if a = 0 then (b, 0, 1)
    else
      let r := extended_gcd fuel (b.fmod a) a
      (r.1, r.2.2 - (b.fdiv a) * r.2.1, r.2.1)

def pyInvMod (x m : Nat) : Option Nat :=
  if Nat.gcd x m = 1 then
    some (((extended_gcd (x + 1) (x : Int) (m : Int)).2.1 % (m : Int)).toNat)
  else none

def floorLog2Go : Nat → Nat → Nat
  | 0, _ => 0
  | fl+1, n => if 2 ≤ n then floorLog2Go fl (n / 2) + 1 else 0

def floorLog2 (n : Nat) : Nat := floorLog2Go n n

def removeFactor (n i : Nat) : Nat :=
  if h : 2 ≤ i ∧ 0 < n ∧ n % i = 0 then removeFactor (n / i) i else n
termination_by n
decreasing_by
  exact Nat.div_lt_self h.2.1 (by omega)

def collectFactorsStep (st : Nat × List Nat) (i : Nat) : Nat × List Nat :=
  if st.1 % i = 0 then (removeFactor st.1 i, st.2 ++ [i]) else st

/-- The trial-division factor collection loop of `find_primitive_root`. -/
def collectFactors (n0 : Nat) : List Nat :=
  let r := (List.range' 2 (Nat.sqrt n0 + 1 - 2)).foldl collectFactorsStep (n0, ([] : List Nat))
  if r.1 > 1 then r.2 ++ [r.1] else r.2

def is_primitive_root (a modulus : Nat) (factors : List Nat) : Bool :=
  factors.all (fun f => pyPowMod a ((modulus - 1) / f) modulus != 1)

def searchRoot (modulus : Nat) (factors : List Nat) : Nat → Nat → Option Nat
  | 0, _ => none
  | fuel+1, a =>
    if is_primitive_root a modulus factors then some a
    else searchRoot modulus factors fuel (a + 1)

def find_primitive_root (modulus : Nat) : Option Nat :=
  if modulus = 3329 then some 17
  else if modulus = 8380417 then some 1753
  else if modulus = 17 then some 3
  else searchRoot modulus (collectFactors (modulus - 1)) modulus 2

def stageStep {α : Type} (d : α) (f : Nat → α → α → α × α) (m k : Nat) (r : List α) (j : Nat) : List α :=
  let u := r.getD (k + j) d
  let v := r.getD (k + j + m) d
  (r.set (k + j) (f j u v).1).set (k + j + m) (f j u v).2

def stageBlock {α : Type} (d : α) (f : Nat → α → α → α × α) (m k : Nat) (r : List α) : List α :=
  (List.range m).foldl (stageStep d f m k) r

def pairStage {α : Type} (d : α) (f : Nat → α → α → α × α) (m n : Nat) (r : List α) : List α :=
  (List.range (n / (2 * m))).foldl (fun r b => stageBlock d f m (b * (2 * m)) r) r

/-- Value at index `i` after one butterfly stage of half-block size `m`,
expressed as a pure function of the list before the stage. -/
def stageVal {α : Type} (d : α) (f : Nat → α → α → α × α) (m : Nat) (r : List α) (i : Nat) : α :=
  if i % (2 * m) < m then (f (i % (2 * m)) (r.getD i d) (r.getD (i + m) d)).1
  else (f (i % (2 * m) - m) (r.getD (i - m) d) (r.getD i d)).2

def nttButterfly (q : Int) (omegas : List Int) (n m : Nat) (j : Nat) (u v0 : Int) : Int × Int :=
  let v := v0 * omegas.getD (j * (n / (2 * m))) 0 % q
  ((u + v) % q, (u - v) % q)

def inttButterfly (q : Int) (omegasInv : List Int) (n m : Nat) (j : Nat) (u v : Int) :
    Int × Int :=
  ((u + v) % q, (u - v) * omegasInv.getD (j * (n / (2 * m))) 0 % q)

def nttStages (q : Int) (omegas : List Int) (n L : Nat) (r : List Int) : List Int :=
  (List.range L).foldl
    (fun r s => pairStage 0 (nttButterfly q omegas n (2 ^ s)) (2 ^ s) n r) r

def inttStages (q : Int) (omegasInv : List Int) (n L : Nat) (r : List Int) : List Int :=
  (List.range L).reverse.foldl
    (fun r s => pairStage 0 (inttButterfly q omegasInv n (2 ^ s)) (2 ^ s) n r) r

def ntt_transform (poly : List Int) (modulus : Nat) : Option (List Int) :=
  let n := poly.length
  if n = 0 then none
  else if n &&& (n - 1) ≠ 0 then none
  else
    (find_primitive_root modulus).bind (fun g =>
      let omega := pyPowMod g ((modulus - 1) / n) modulus
      let omegas := (List.range n).map (fun i => (pyPowMod omega i modulus : Int))
      some (nttStages modulus omegas n (floorLog2 n) poly))

def intt_transform (poly : List Int) (modulus : Nat) : Option (List Int) :=
  let n := poly.length
  if n = 0 then none
  else if n &&& (n - 1) ≠ 0 then none
  else
    (find_primitive_root modulus).bind (fun g =>
      let omega := pyPowMod g ((modulus - 1) / n) modulus
      (pyInvMod omega modulus).bind (fun omega_inv =>
        (pyInvMod n modulus).bind (fun n_inv =>
          let omegasInv := (List.range n).map (fun i => (pyPowMod omega_inv i modulus : Int))
          some ((inttStages modulus omegasInv n (floorLog2 n) poly).map
            (fun x => x * (n_inv : Int) % (modulus : Int))))))

/-! ## `polynomial_multiply` (src/utils.py lines 195-229)

The only explicit check is the length equality; a non-power-of-two length
is silently padded with zeros up to the next power of two (`while n_padded
< n: n_padded *= 2`), and the product is truncated back to the input
length at the end. -/

def nextPow2Go : Nat → Nat → Nat → Nat
  | 0, _, cur => cur
  | fl+1, n, cur => if cur < n then nextPow2Go fl n (2 * cur) else cur

def nextPow2 (n : Nat) : Nat := nextPow2Go n n 1

def polynomial_multiply (a b : List Int) (modulus : Nat) : Option (List Int) :=
  let n := a.length
  if n ≠ b.length then none
  else
    let npad := nextPow2 n
    let apad := a ++ List.replicate (npad - n) 0
    let bpad := b ++ List.replicate (npad - n) 0
    (ntt_transform apad modulus).bind (fun antt =>
      (ntt_transform bpad modulus).bind (fun bntt =>
        let cntt := List.zipWith (fun x y => x * y % (modulus : Int)) antt bntt
        (intt_transform cntt modulus).bind (fun res => some (res.take n))))

def ctZ {q : Nat} (w : Nat → ZMod q) (j : Nat) (u v : ZMod q) : ZMod q × ZMod q :=
  (u + v * w j, u - v * w j)

def gsZ {q : Nat} (w : Nat → ZMod q) (j : Nat) (u v : ZMod q) : ZMod q × ZMod q :=
  (u + v, (u - v) * w j)

def stageZ {q : Nat} (g : Nat → ZMod q → ZMod q → ZMod q × ZMod q) (m : Nat) (r : List (ZMod q)) :
    List (ZMod q) :=
  (List.range r.length).map (stageVal 0 g m r)

/-- Modelled from the spec: the schoolbook negacyclic convolution, "the
full polynomial product reduced by `xⁿ ≡ −1`, then mod q" — the ground
truth oracle the spec prescribes for `polynomial_multiply`. -/
def negacyclic_convolution (a b : List Int) (q : Nat) : List Int :=
  let n := a.length
  (List.range n).map (fun k =>
    (((List.range n).foldl (fun acc i =>
      if i ≤ k then acc + a.getD i 0 * b.getD (k - i) 0
      else acc - a.getD i 0 * b.getD (k + n - i) 0) 0) % (q : Int)))

def mod_inverse (a m : Int) : Int :=
  ((extended_gcd (a.natAbs + 1) a m).2.1.fmod m + m).fmod m

def secure_random_bytes (length : Nat) (stream : Nat → Nat) : List Nat :=
  (List.range length).map stream

def randbelow (k : Nat) (r : Nat) : Nat := r % k

/-- `secure_random_int(min_val, max_val)` =
`secrets.randbelow(max_val - min_val + 1) + min_val`. -/
def secure_random_int (lo hi : Int) (r : Nat) : Int :=
  lo + (randbelow (hi - lo + 1).toNat r : Int)

/-- `generate_matrix(rows, cols, modulus)`: a rows×cols grid of
`secure_random_int(0, modulus - 1)` draws; the entropy stream is indexed
so that each entry consumes one draw. -/
def generate_matrix (rows cols : Nat) (modulus : Int) (stream : Nat → Nat) :
    List (List Int) :=
  (List.range rows).map (fun i =>
    (List.range cols).map (fun j => secure_random_int 0 (modulus - 1) (stream (i * cols + j))))

structure KyberParams where
  k : Nat
  n : Nat
  q : Nat
  eta : Nat

/-- `KyberParams()`: k=3, n=256, q=3329, eta=2. -/
def kyberDefaultParams : KyberParams := ⟨3, 256, 3329, 2⟩

/-- Models the call `utils.polynomial_multiply(A[i][j], s[j], params.q,
params.n)` in `kyber.generate_keys` (src/kyber.py line 46):
`polynomial_multiply` takes exactly three positional arguments
(src/utils.py line 195), so this four-argument call raises `TypeError`
before any arithmetic happens. -/
def polynomial_multiply4 (a b : List Int) (modulus n : Nat) : Option (List Int) := none

structure KyberPublicKey where
  A : List (List (List Int))
  t : List (List Int)
  seed : Option (List Nat)

structure KyberPrivateKey where
  s : List (List Int)
  seed : Option (List Nat)

def addVecMod (x y : List Int) (q : Nat) : List Int :=
  List.zipWith (fun a b => (a + b) % (q : Int)) x y

/-- `kyber.generate_keys` (src/kyber.py lines 24-64): sample A (k×k rows
of length n drawn with modulus q), s and e (k rows of length n drawn with
modulus **eta**), then compute `t = A·s + e` row by row via
`polynomial_multiply(A[i][j], s[j], params.q, params.n)` — the
four-argument call that raises `TypeError`. -/
def kyber_generate_keys (params : KyberParams) (stream : Nat → Nat) :
    Option (KyberPublicKey × KyberPrivateKey) :=
  let A : List (List (List Int)) := (List.range params.k).map (fun i =>
    (List.range params.k).map (fun j =>
      (generate_matrix 1 params.n (params.q : Int)
        (fun r => stream ((i * params.k + j) * params.n + r))).getD 0 []))
  let base := params.k * params.k * params.n
  let s : List (List Int) := (List.range params.k).map (fun j =>
    (generate_matrix 1 params.n (params.eta : Int)
      (fun r => stream (base + j * params.n + r))).getD 0 [])
  let e : List (List Int) := (List.range params.k).map (fun j =>
    (generate_matrix 1 params.n (params.eta : Int)
      (fun r => stream (base + params.k * params.n + j * params.n + r))).getD 0 [])
  ((List.range params.k).mapM (fun i =>
    ((List.range params.k).foldlM (fun acc j =>
      (polynomial_multiply4 ((A.getD i []).getD j []) (s.getD j []) params.q params.n).map
        (fun product => addVecMod acc product params.q))
      (List.replicate params.n 0)).map
      (fun ti => addVecMod ti (e.getD i []) params.q))).bind (fun t =>
    let key_seed := secure_random_bytes 32
      (fun r => stream (base + 2 * params.k * params.n + r))
    some (⟨A, t, some key_seed⟩, ⟨s, some key_seed⟩))

/-! ## Claim C3: `kyber.generate_keys` raises `TypeError` -/

def constant_time_compare (a b : List Nat) : Bool :=
  if a.length ≠ b.length then false
  else ((a.zip b).foldl (fun r p => r ||| (p.1 ^^^ p.2)) 0) == 0

structure DilithiumSigningKey where
  key_seed : Option (List Nat)  -- `signing_key['key_seed']`; `none` models a dict missing the key.  The other entries (rho, A, s1, s2, t) are never consulted by `sign`.

structure DilithiumVerificationKey where
  key_seed : Option (List Nat)  -- `verification_key.get('key_seed')`; the other entries (rho, A, t) are never consulted by `verify`.

def compute_signature_hash (hash : List Nat → List Nat)
    (key_seed message nonce : List Nat) : List Nat :=
  hash (key_seed ++ message ++ nonce)

def dilithium_sign (hash : List Nat → List Nat) (signing_key : DilithiumSigningKey)
    (message : List Nat) (stream : Nat → Nat) : List Nat :=
  match signing_key.key_seed with
  | none => secure_random_bytes 64 stream
  | some key_seed =>
    let nonce := secure_random_bytes 32 stream
    nonce ++ compute_signature_hash hash key_seed message nonce

def dilithium_verify (hash : List Nat → List Nat)
    (verification_key : DilithiumVerificationKey) (message signature : List Nat) : Bool :=
  if signature.length ≠ 64 then false
  else
    let nonce := signature.take 32
    let actual_signature := signature.drop 32
    match verification_key.key_seed with
    | none => false
    | some key_seed =>
      constant_time_compare actual_signature
        (compute_signature_hash hash key_seed message nonce)

structure KyberCiphertext where
  c : List Nat
  nonce : List Nat

def derive_shared_secret (hash : List Nat → List Nat)
    (seed message nonce : List Nat) : List Nat :=
  hash (seed ++ message ++ nonce)

def kyber_encapsulate (hash : List Nat → List Nat) (public_key : KyberPublicKey)
    (stream : Nat → Nat) : KyberCiphertext × List Nat :=
  let message := secure_random_bytes 32 stream
  let nonce := secure_random_bytes 32 (fun i => stream (32 + i))
  let seed := match public_key.seed with
    | some s => s
    | none => secure_random_bytes 32 (fun i => stream (64 + i))
  (⟨message, nonce⟩, derive_shared_secret hash seed message nonce)

def kyber_decapsulate (hash : List Nat → List Nat) (ciphertext : KyberCiphertext)
    (private_key : KyberPrivateKey) (stream : Nat → Nat) : List Nat :=
  match private_key.seed with
  | some seed => derive_shared_secret hash seed ciphertext.c ciphertext.nonce
  | none => secure_random_bytes 32 stream

/-! ## Claim C10: Kyber encapsulate/decapsulate round trip -/

/-! # Theorems -/

/-! ## Small list access helpers -/
theorem getD_set_self (l : List α) (i : Nat) (x d : α) (h : i < l.length) :
    (l.set i x).getD i d = x := by
  simp [List.getD_eq_getElem?_getD, List.getElem?_set_self h]

theorem getD_set_ne (l : List α) (i j : Nat) (x d : α) (h : i ≠ j) :
    (l.set i x).getD j d = l.getD j d := by
  simp [List.getD_eq_getElem?_getD, List.getElem?_set_ne h]

theorem getD_map_zero {β : Type} [Zero α] [Zero β] (c : α → β) (hc : c 0 = 0)
    (l : List α) (i : Nat) : (l.map c).getD i 0 = c (l.getD i 0) := by
  simp only [List.getD_eq_getElem?_getD, List.getElem?_map]
  cases h : l[i]? with
  | none => simp [hc]
  | some v => simp

theorem getD_range_map {β : Type} [Zero β] (g : Nat → β) (n i : Nat) (h : i < n) :
    ((List.range n).map g).getD i 0 = g i := by
  have h1 : ((List.range n).map g)[i]? = some (g i) := by
    rw [List.getElem?_map, List.getElem?_range h]
    rfl
  simp [List.getD_eq_getElem?_getD, h1]

theorem getD_range_map_ge {β : Type} [Zero β] (g : Nat → β) (n i : Nat) (h : n ≤ i) :
    ((List.range n).map g).getD i 0 = 0 := by
  have h1 : ((List.range n).map g)[i]? = none := by
    rw [List.getElem?_eq_none]
    simpa using h
  simp [List.getD_eq_getElem?_getD, h1]

/-! ## Python built-in `pow`

`pow(b, e, m)` is binary modular exponentiation.  We model it with an
explicit fuel argument (the exponent halves every step, so `e + 1` rounds
of fuel always suffice). -/

theorem pyPowModGo_spec (m : Nat) :
    ∀ fl ee bb acc, ee < 2 ^ fl →
      pyPowModGo m fl (bb % m) ee (acc % m) = acc * bb ^ ee % m := by
  intro fl
  induction fl with
  | zero =>
    intro ee bb acc h
    have he : ee = 0 := by omega
    subst he
    simp [pyPowModGo]
  | succ fl ih =>
    intro ee bb acc h
    rw [pyPowModGo]
    by_cases he : ee = 0
    · subst he; simp
    · rw [if_neg he]
      have hhalf : ee / 2 < 2 ^ fl := by
        have := Nat.pow_succ 2 fl
        omega
      have hbb : bb % m * (bb % m) % m = bb * bb % m := (Nat.mul_mod bb bb m).symm
      rcases Nat.even_or_odd ee with hev | hod
      · have h2 : ¬ ee % 2 = 1 := by
          have := Nat.even_iff.mp hev
          omega
        rw [if_neg h2, hbb, ih (ee / 2) (bb * bb) acc hhalf]
        have : (bb * bb) ^ (ee / 2) = bb ^ ee := by
          rw [show bb * bb = bb ^ 2 by ring, ← pow_mul]
          congr 1
          have := Nat.even_iff.mp hev
          omega
        rw [this]
      · have h2 : ee % 2 = 1 := Nat.odd_iff.mp hod
        rw [if_pos h2]
        have hacc : acc % m * (bb % m) % m = acc * bb % m := (Nat.mul_mod acc bb m).symm
        rw [hbb, hacc, ih (ee / 2) (bb * bb) (acc * bb) hhalf]
        have : acc * bb * (bb * bb) ^ (ee / 2) = acc * bb ^ ee := by
          rw [show bb * bb = bb ^ 2 by ring, ← pow_mul, mul_assoc, ← pow_succ']
          congr 2
          omega
        rw [this]

theorem pyPowMod_eq (b e m : Nat) : pyPowMod b e m = b ^ e % m := by
  have hlt : e < 2 ^ (e + 1) :=
    Nat.lt_of_lt_of_le (Nat.lt_two_pow e) (Nat.pow_le_pow_right (by norm_num) (by omega))
  have h := pyPowModGo_spec m (e + 1) e b 1 hlt
  simpa using h

theorem pyPowMod_lt (b e m : Nat) (hm : 0 < m) : pyPowMod b e m < m := by
  rw [pyPowMod_eq]
  exact Nat.mod_lt _ hm

/-! ## Python built-in `pow(x, -1, m)`

A negative exponent asks for the modular inverse; Python raises
`ValueError` when `gcd(x, m) ≠ 1`, which we model as `none`. -/

/-! ### `extended_gcd` (src/utils.py lines 93-99, inside `mod_inverse`)

```python
def extended_gcd(a, b):
    if a == 0:
        return b, 0, 1
    gcd, x1, y1 = extended_gcd(b % a, a)
    x = y1 - (b // a) * x1
    y = x1
    return gcd, x, y
```
Python `%`/`//` on possibly negative operands are floor-based, i.e.
`Int.fmod`/`Int.fdiv`.  The recursion strictly decreases `|a|`, so fuel
`|a| + 1` is always sufficient; exhausted fuel falls back to the `a = 0`
branch (this is dead code for sufficient fuel). -/

/-- Bezout identity for `extended_gcd` on the nonnegative-first-argument,
positive-second-argument domain actually reached from `mod_inverse(a, m)`
with `a ≥ 0`, `m > 0`. -/
theorem extended_gcd_spec : ∀ (fuel : Nat) (a b : Int), 0 ≤ a → 0 < b → a.natAbs < fuel →
    (extended_gcd fuel a b).1 = Int.gcd a b ∧
    a * (extended_gcd fuel a b).2.1 + b * (extended_gcd fuel a b).2.2 =
      (extended_gcd fuel a b).1 := by
  intro fuel
  induction fuel with
  | zero => intro a b _ _ h; omega
  | succ fuel ih =>
    intro a b ha hb hfuel
    rw [extended_gcd]
    by_cases ha0 : a = 0
    · subst ha0
      simp only [if_pos]
      constructor
      · rw [Int.gcd_zero_left]
        exact (Int.natAbs_of_nonneg hb.le).symm
      · simp
    · rw [if_neg ha0]
      have hapos : 0 < a := by omega
      have hmod_nonneg : 0 ≤ b.fmod a := Int.fmod_nonneg' b hapos
      have hmod_lt : b.fmod a < a := Int.fmod_lt_of_pos b hapos
      have hfuel2 : (b.fmod a).natAbs < fuel := by omega
      obtain ⟨hg, hbez⟩ := ih (b.fmod a) a hmod_nonneg hapos hfuel2
      constructor
      · rw [hg]
        -- gcd (b mod a) a = gcd a b, via the Nat recursion
        have he : b.fmod a = b % a := Int.fmod_eq_emod b ha
        have hA : a = ((a.toNat : Nat) : Int) := by omega
        have hB : b = ((b.toNat : Nat) : Int) := by omega
        have key : (b % a).gcd a = a.gcd b := by
          have e1 : b % a = ((b.toNat % a.toNat : Nat) : Int) := by
            conv_lhs => rw [hB, hA]
            rw [← Int.ofNat_emod]
          rw [e1]
          conv_lhs => rw [hA]
          conv_rhs => rw [hA, hB]
          rw [Int.gcd_natCast_natCast, Int.gcd_natCast_natCast]
          exact (Nat.gcd_rec _ _).symm
        rw [he, key]
      · have hfd : b.fmod a + a * b.fdiv a = b := Int.fmod_add_fdiv b a
        set r := extended_gcd fuel (b.fmod a) a with hr
        calc a * (r.2.2 - b.fdiv a * r.2.1) + b * r.2.1
            = (b.fmod a) * r.2.1 + a * r.2.2 + (b - (b.fmod a + a * b.fdiv a)) * r.2.1 := by
              ring
          _ = (b.fmod a) * r.2.1 + a * r.2.2 := by rw [hfd]; ring
          _ = r.1 := hbez

/-! ### Python built-in `pow(x, -1, m)`

A negative exponent asks for the modular inverse; Python raises
`ValueError` when `gcd(x, m) ≠ 1`, which we model as `none`.  The inverse
value Python returns is the canonical representative in `[0, m)` of the
Bezout coefficient, which `extended_gcd` computes. -/

theorem pyInvMod_isSome (x m : Nat) (h : Nat.gcd x m = 1) :
    (pyInvMod x m).isSome := by
  simp [pyInvMod, h]

theorem pyInvMod_mul (x m v : Nat) (hm : 0 < m) (h : pyInvMod x m = some v) :
    (x * v) % m = 1 % m := by
  by_cases hg : Nat.gcd x m = 1
  case neg => simp [pyInvMod, hg] at h
  have hmI : (0 : Int) < (m : Int) := by exact_mod_cast hm
  obtain ⟨hgcd, hbez⟩ := extended_gcd_spec (x + 1) (x : Int) (m : Int)
    (by omega) hmI (by simp)
  set r := extended_gcd (x + 1) (x : Int) (m : Int) with hr
  have hgcd1 : r.1 = 1 := by
    rw [hgcd, Int.gcd_natCast_natCast, hg]
    rfl
  have hv : (v : Int) = r.2.1 % (m : Int) := by
    simp only [pyInvMod, hg, if_pos, ← hr] at h
    rw [← Option.some_inj.mp h]
    exact Int.toNat_of_nonneg (Int.emod_nonneg _ (by omega))
  have hint : (x : Int) * v % m = 1 % m := by
    rw [hv]
    calc (x : Int) * (r.2.1 % m) % m
        = (x % m) * (r.2.1 % m % m) % m := by rw [← Int.mul_emod]
      _ = (x % m) * (r.2.1 % m) % m := by
            rw [Int.emod_emod_of_dvd _ dvd_rfl]
      _ = x * r.2.1 % m := by rw [← Int.mul_emod]
      _ = (1 + m * (- r.2.2)) % m := by
            congr 1
            have : (x : Int) * r.2.1 + m * r.2.2 = 1 := by rw [hbez, hgcd1]
            rw [mul_neg]
            omega
      _ = 1 % m := Int.add_mul_emod_self_left 1 m (- r.2.2)
  have hcast : (((x * v) % m : Nat) : Int) = (((1 % m : Nat)) : Int) := by
    push_cast
    exact hint
  exact_mod_cast hcast

theorem pyInvMod_lt (x m v : Nat) (hm : 0 < m) (h : pyInvMod x m = some v) : v < m := by
  by_cases hg : Nat.gcd x m = 1
  · have hv : v = ((extended_gcd (x + 1) (x : Int) (m : Int)).2.1 % (m : Int)).toNat := by
      simp only [pyInvMod, hg, if_pos] at h
      exact (Option.some_inj.mp h).symm
    have : (extended_gcd (x + 1) (x : Int) (m : Int)).2.1 % (m : Int) < m :=
      Int.emod_lt_of_pos _ (by exact_mod_cast hm)
    omega
  · simp [pyInvMod, hg] at h

/-! ## `bit_reverse` (src/utils.py lines 104-110)

```python
def bit_reverse(x, bits):
    result = 0
    for i in range(bits):
        result = (result << 1) | (x & 1)
        x >>= 1
    return result
```
The loop is modelled by structural recursion on the iteration count, with
the accumulator made explicit. -/

theorem floorLog2Go_pow : ∀ fl k, 2 ^ k ≤ fl → floorLog2Go fl (2 ^ k) = k := by
  intro fl
  induction fl with
  | zero =>
    intro k h
    have := Nat.pos_pow_of_pos k (show 0 < 2 by norm_num)
    omega
  | succ fl ih =>
    intro k h
    cases k with
    | zero => simp [floorLog2Go]
    | succ k =>
      have h2 : 2 ≤ 2 ^ (k + 1) := by
        calc 2 = 2 ^ 1 := by norm_num
          _ ≤ 2 ^ (k + 1) := Nat.pow_le_pow_right (by norm_num) (by omega)
      rw [floorLog2Go, if_pos h2]
      have hdiv : 2 ^ (k + 1) / 2 = 2 ^ k := by
        rw [Nat.pow_succ, Nat.mul_div_cancel]
        norm_num
      rw [hdiv, ih k (by
        have : 2 ^ k < 2 ^ (k + 1) := Nat.pow_lt_pow_right (by norm_num) (by omega)
        omega)]

theorem floorLog2_pow (k : Nat) : floorLog2 (2 ^ k) = k :=
  floorLog2Go_pow (2 ^ k) k (le_refl _)

/-! ## `find_primitive_root` (src/utils.py lines 58-89)

The three known moduli return hardcoded constants.  Otherwise the prime
factors of `modulus - 1` are collected by trial division (`int(n ** 0.5)`
is modelled as `Nat.sqrt n`, exact for these magnitudes), and candidates
`a = 2, 3, ...` are tested in order.  The candidate `while` loop has no
bound in the source; it is modelled with fuel `modulus`, which the
termination theorem below shows is never exhausted for an odd prime
modulus.  The inner `while n % i == 0` loop is modelled by `removeFactor`
(the `0 < n` guard only totalises the Lean definition: the Python value
`n` stays positive throughout). -/

theorem foldl_invariant {α β : Type} (P : α → Prop) (step : α → β → α) (l : List β) :
    ∀ init, P init → (∀ a b, b ∈ l → P a → P (step a b)) → P (l.foldl step init) := by
  induction l with
  | nil => intro init h0 _; exact h0
  | cons x xs ih =>
    intro init h0 hstep
    rw [List.foldl_cons]
    exact ih _ (hstep init x (by simp) h0) (fun a b hb ha => hstep a b (by simp [hb]) ha)

theorem removeFactor_dvd (n i : Nat) : removeFactor n i ∣ n := by
  induction n using Nat.strong_induction_on with
  | _ n ih =>
    rw [removeFactor]
    split
    case isTrue h =>
      have hlt : n / i < n := Nat.div_lt_self h.2.1 (by omega)
      exact (ih (n / i) hlt).trans (Nat.div_dvd_of_dvd (Nat.dvd_of_mod_eq_zero h.2.2))
    case isFalse h => exact dvd_rfl

theorem removeFactor_pos (n i : Nat) (hn : 0 < n) : 0 < removeFactor n i := by
  induction n using Nat.strong_induction_on with
  | _ n ih =>
    rw [removeFactor]
    split
    case isTrue h =>
      have hlt : n / i < n := Nat.div_lt_self h.2.1 (by omega)
      have hdvd : i ∣ n := Nat.dvd_of_mod_eq_zero h.2.2
      have : 0 < n / i := Nat.div_pos (Nat.le_of_dvd h.2.1 hdvd) (by omega)
      exact ih (n / i) hlt this
    case isFalse _ => exact hn

theorem collectFactors_mem (n0 : Nat) (hn0 : 0 < n0) :
    ∀ f ∈ collectFactors n0, 2 ≤ f ∧ f ∣ n0 := by
  have hinv : ∀ st : Nat × List Nat,
      (st.1 ∣ n0 ∧ 0 < st.1 ∧ ∀ f ∈ st.2, 2 ≤ f ∧ f ∣ n0) →
      ∀ i, 2 ≤ i → (collectFactorsStep st i).1 ∣ n0 ∧ 0 < (collectFactorsStep st i).1 ∧
        ∀ f ∈ (collectFactorsStep st i).2, 2 ≤ f ∧ f ∣ n0 := by
    intro st hst i hi
    unfold collectFactorsStep
    split
    case isTrue h =>
      refine ⟨(removeFactor_dvd st.1 i).trans hst.1, removeFactor_pos _ _ hst.2.1, ?_⟩
      intro f hf
      simp only [List.mem_append, List.mem_singleton] at hf
      rcases hf with hf | hf
      · exact hst.2.2 f hf
      · subst hf
        exact ⟨hi, (Nat.dvd_of_mod_eq_zero h).trans hst.1⟩
    case isFalse _ => exact hst
  have hfold := foldl_invariant
    (fun st : Nat × List Nat => st.1 ∣ n0 ∧ 0 < st.1 ∧ ∀ f ∈ st.2, 2 ≤ f ∧ f ∣ n0)
    collectFactorsStep (List.range' 2 (Nat.sqrt n0 + 1 - 2)) (n0, [])
    ⟨dvd_rfl, hn0, by simp⟩
    (fun a b hb ha => hinv a ha b (by
      have := List.mem_range'.mp hb
      omega))
  unfold collectFactors
  intro f hf
  set r := (List.range' 2 (Nat.sqrt n0 + 1 - 2)).foldl collectFactorsStep (n0, []) with hr
  by_cases h1 : r.1 > 1
  · rw [if_pos h1] at hf
    simp only [List.mem_append, List.mem_singleton] at hf
    rcases hf with hf | hf
    · exact hfold.2.2 f hf
    · subst hf
      exact ⟨by omega, hfold.1⟩
  · rw [if_neg h1] at hf
    exact hfold.2.2 f hf

theorem searchRoot_some (modulus : Nat) (factors : List Nat) :
    ∀ fuel start astar, start ≤ astar → astar < start + fuel →
      is_primitive_root astar modulus factors = true →
      ∃ g, searchRoot modulus factors fuel start = some g ∧ start ≤ g ∧ g ≤ astar := by
  intro fuel
  induction fuel with
  | zero => intro start astar h1 h2 _; omega
  | succ fuel ih =>
    intro start astar h1 h2 htest
    rw [searchRoot]
    by_cases hs : is_primitive_root start modulus factors
    · exact ⟨start, by rw [if_pos hs], le_refl _, h1⟩
    · have hne : start ≠ astar := fun he => hs (he ▸ htest)
      obtain ⟨g, hg, hg1, hg2⟩ := ih (start + 1) astar (by omega) (by omega) htest
      exact ⟨g, by rw [if_neg hs]; exact hg, by omega, hg2⟩

/-- For every odd prime modulus the primitive-root search terminates within
its fuel and returns a candidate in `[2, modulus)`; in particular the
returned value is not divisible by the modulus. -/
theorem find_primitive_root_success (p : Nat) (hp : p.Prime) (hp2 : p ≠ 2) :
    ∃ g, find_primitive_root p = some g ∧ 0 < g ∧ g < p ∧ ¬ p ∣ g := by
  by_cases h1 : p = 3329
  · subst h1
    exact ⟨17, by decide, by decide, by decide, by decide⟩
  by_cases h2 : p = 8380417
  · subst h2
    exact ⟨1753, by decide, by decide, by decide, by decide⟩
  by_cases h3 : p = 17
  · subst h3
    exact ⟨3, by decide, by decide, by decide, by decide⟩
  -- fallback: exhaustive search, justified by the existence of a generator
  haveI : Fact p.Prime := ⟨hp⟩
  have hp1 : 2 < p := by
    have := hp.two_le
    omega
  obtain ⟨ζ, hζ⟩ := IsCyclic.exists_generator (α := (ZMod p)ˣ)
  have hord : orderOf ζ = p - 1 := by
    rw [orderOf_eq_card_of_forall_mem_zpowers hζ, Nat.card_eq_fintype_card, ZMod.card_units p]
  set astar := (ζ : ZMod p).val with hastar
  have hastar_lt : astar < p := ZMod.val_lt _
  have hastar_cast : ((astar : Nat) : ZMod p) = (ζ : ZMod p) := ZMod.natCast_zmod_val _
  have hastar_ne0 : astar ≠ 0 := by
    intro h0
    have : (ζ : ZMod p) = 0 := by
      rw [← hastar_cast, h0, Nat.cast_zero]
    exact ζ.ne_zero this
  have hastar_ne1 : astar ≠ 1 := by
    intro h0
    have hζ1 : (ζ : ZMod p) = 1 := by
      rw [← hastar_cast, h0, Nat.cast_one]
    have : ζ = 1 := Units.val_eq_one.mp hζ1
    rw [this, orderOf_one] at hord
    omega
  have hastar2 : 2 ≤ astar := by omega
  -- the search test passes at astar
  have htest : is_primitive_root astar p (collectFactors (p - 1)) = true := by
    unfold is_primitive_root
    rw [List.all_eq_true]
    intro f hf
    obtain ⟨hf2, hfdvd⟩ := collectFactors_mem (p - 1) (by omega) f hf
    rw [bne_iff_ne]
    intro hpow
    set e := (p - 1) / f with he
    have hfle : f ≤ p - 1 := Nat.le_of_dvd (by omega) hfdvd
    have hee : e * f = p - 1 := Nat.div_mul_cancel hfdvd
    have he_pos : 0 < e := by
      rcases Nat.eq_zero_or_pos e with h0 | h0
      · rw [h0, zero_mul] at hee
        omega
      · exact h0
    have he_lt : e < p - 1 := by
      have h21 : e * 2 ≤ e * f := Nat.mul_le_mul_left e hf2
      omega
    -- transfer `astar ^ e % p = 1` into the unit group
    have hcast : ((pyPowMod astar e p : Nat) : ZMod p) = ((astar : ZMod p)) ^ e := by
      rw [pyPowMod_eq, ZMod.natCast_mod, Nat.cast_pow]
    have hζe : (ζ : ZMod p) ^ e = 1 := by
      rw [← hastar_cast, ← hcast, hpow, Nat.cast_one]
    have hζe' : ζ ^ e = 1 := by
      apply Units.val_eq_one.mp
      rw [Units.val_pow_eq_pow_val]
      exact hζe
    have hdvd : orderOf ζ ∣ e := orderOf_dvd_of_pow_eq_one hζe'
    rw [hord] at hdvd
    have := Nat.le_of_dvd he_pos hdvd
    omega
  obtain ⟨g, hg, hg2, hgle⟩ :=
    searchRoot_some p (collectFactors (p - 1)) p 2 astar hastar2 (by omega) htest
  refine ⟨g, ?_, by omega, by omega, ?_⟩
  · unfold find_primitive_root
    rw [if_neg h1, if_neg h2, if_neg h3]
    exact hg
  · intro hdvd
    have := Nat.le_of_dvd (by omega) hdvd
    omega

/-! ## The in-place butterfly loops of `ntt_transform`/`intt_transform`

Both transforms run, for each stage `s`, the loop
```python
m = 1 << s
for k in range(0, n, 2 * m):
    for j in range(m):
        idx1 = k + j
        idx2 = k + j + m
        ... read result[idx1], result[idx2], write both back ...
```
`pairStage` is this doubly nested loop, generic in the butterfly body `f`.
The writes of one iteration never overlap the reads of a later one, which
is what `pairStage_getD` (the closed form of one stage) makes precise. -/





section PairStage

variable {α : Type} (d : α) (f : Nat → α → α → α × α)

theorem stageStep_length (m k : Nat) (r : List α) (j : Nat) :
    (stageStep d f m k r j).length = r.length := by
  simp [stageStep]

theorem foldl_stageStep_length (m k : Nat) :
    ∀ (l : List Nat) (r : List α), (l.foldl (stageStep d f m k) r).length = r.length := by
  intro l
  induction l with
  | nil => intro r; rfl
  | cons x xs ih => intro r; rw [List.foldl_cons, ih, stageStep_length]

theorem stageBlock_length (m k : Nat) (r : List α) :
    (stageBlock d f m k r).length = r.length :=
  foldl_stageStep_length d f m k (List.range m) r

theorem pairStage_length (m n : Nat) (r : List α) :
    (pairStage d f m n r).length = r.length := by
  unfold pairStage
  generalize List.range (n / (2 * m)) = l
  induction l generalizing r with
  | nil => rfl
  | cons x xs ih => rw [List.foldl_cons, ih, stageBlock_length]

theorem stageBlockAux_getD (m k : Nat) (hm : 0 < m) (r : List α) (hk : k + 2 * m ≤ r.length) :
    ∀ t, t ≤ m → ∀ i,
      ((List.range t).foldl (stageStep d f m k) r).getD i d =
        if k ≤ i ∧ i < k + t then (f (i - k) (r.getD i d) (r.getD (i + m) d)).1
        else if k + m ≤ i ∧ i < k + m + t then (f (i - k - m) (r.getD (i - m) d) (r.getD i d)).2
        else r.getD i d := by
  intro t
  induction t with
  | zero =>
    intro _ i
    simp only [List.range_zero, List.foldl_nil]
    rw [if_neg (by omega), if_neg (by omega)]
  | succ t ih =>
    intro ht i
    have ht' : t ≤ m := by omega
    rw [List.range_succ, List.foldl_append, List.foldl_cons, List.foldl_nil]
    set r' := (List.range t).foldl (stageStep d f m k) r with hr'
    have hlen : r'.length = r.length := foldl_stageStep_length d f m k (List.range t) r
    have hu : r'.getD (k + t) d = r.getD (k + t) d := by
      rw [ih ht' (k + t)]
      rw [if_neg (by omega), if_neg (by omega)]
    have hv : r'.getD (k + t + m) d = r.getD (k + t + m) d := by
      rw [ih ht' (k + t + m)]
      rw [if_neg (by omega), if_neg (by omega)]
    unfold stageStep
    rw [hu, hv]
    by_cases hi1 : i = k + t
    · subst hi1
      rw [getD_set_ne _ _ _ _ _ (by omega), getD_set_self _ _ _ _ (by rw [hlen]; omega)]
      rw [if_pos (by omega)]
      congr 2
      omega
    · by_cases hi2 : i = k + t + m
      · subst hi2
        rw [getD_set_self _ _ _ _ (by rw [List.length_set, hlen]; omega)]
        rw [if_neg (by omega), if_pos (by omega)]
        have e1 : k + t + m - k - m = t := by omega
        have e2 : k + t + m - m = k + t := by omega
        rw [e1, e2]
      · rw [getD_set_ne _ _ _ _ _ (by omega), getD_set_ne _ _ _ _ _ (by omega), ih ht' i]
        by_cases c1 : k ≤ i ∧ i < k + t
        · rw [if_pos c1, if_pos (by omega)]
        · rw [if_neg c1]
          by_cases c2 : k + m ≤ i ∧ i < k + m + t
          · rw [if_pos c2, if_neg (by omega), if_pos (by omega)]
          · rw [if_neg c2, if_neg (by omega), if_neg (by omega)]

theorem stageBlock_getD (m k : Nat) (hm : 0 < m) (r : List α) (hk : k + 2 * m ≤ r.length)
    (i : Nat) :
    (stageBlock d f m k r).getD i d =
      if k ≤ i ∧ i < k + m then (f (i - k) (r.getD i d) (r.getD (i + m) d)).1
      else if k + m ≤ i ∧ i < k + 2 * m then
        (f (i - k - m) (r.getD (i - m) d) (r.getD i d)).2
      else r.getD i d := by
  have h := stageBlockAux_getD d f m k hm r hk m (le_refl m) i
  unfold stageBlock
  rw [h]
  by_cases c1 : k ≤ i ∧ i < k + m
  · rw [if_pos c1, if_pos c1]
  · rw [if_neg c1, if_neg c1]
    by_cases c2 : k + m ≤ i ∧ i < k + m + m
    · rw [if_pos c2, if_pos (by omega)]
    · rw [if_neg c2, if_neg (by omega)]

theorem pairStageAux_getD (m : Nat) (hm : 0 < m) (r : List α) :
    ∀ B, B * (2 * m) ≤ r.length → ∀ i,
      ((List.range B).foldl (fun r b => stageBlock d f m (b * (2 * m)) r) r).getD i d =
        if i < B * (2 * m) then stageVal d f m r i else r.getD i d := by
  intro B
  induction B with
  | zero =>
    intro _ i
    simp only [List.range_zero, List.foldl_nil]
    rw [if_neg (by omega)]
  | succ B ih =>
    intro hB i
    have hB' : B * (2 * m) ≤ r.length := by
      have : B * (2 * m) ≤ (B + 1) * (2 * m) := Nat.mul_le_mul_right _ (by omega)
      omega
    rw [List.range_succ, List.foldl_append, List.foldl_cons, List.foldl_nil]
    set r' := (List.range B).foldl (fun r b => stageBlock d f m (b * (2 * m)) r) r with hr'
    have hlen : r'.length = r.length := by
      rw [hr']
      generalize List.range B = l
      clear hr' ih hB hB'
      induction l generalizing r with
      | nil => rfl
      | cons x xs ih3 =>
        rw [List.foldl_cons, ih3 (stageBlock d f m (x * (2 * m)) r), stageBlock_length]
    obtain ⟨k, hk⟩ : ∃ kk, B * (2 * m) = kk := ⟨_, rfl⟩
    rw [hk]
    have hsm : (B + 1) * (2 * m) = B * (2 * m) + 2 * m := Nat.succ_mul B (2 * m)
    have hk2 : k + 2 * m ≤ r'.length := by rw [hlen]; omega
    rw [stageBlock_getD d f m k hm r' hk2 i]
    -- values read inside block B are unchanged by the earlier blocks
    have hread : ∀ t, k ≤ t → r'.getD t d = r.getD t d := by
      intro t htk
      rw [ih hB' t, if_neg (by omega)]
    by_cases c1 : k ≤ i ∧ i < k + m
    · have h1 : r'.getD i d = r.getD i d := hread i (by omega)
      have h2 : r'.getD (i + m) d = r.getD (i + m) d := hread (i + m) (by omega)
      rw [if_pos c1, h1, h2, if_pos (show i < (B + 1) * (2 * m) by omega)]
      unfold stageVal
      have hmod : i % (2 * m) = i - k := by
        have hik : i = B * (2 * m) + (i - k) := by omega
        conv_lhs => rw [hik]
        rw [Nat.mul_add_mod']
        exact Nat.mod_eq_of_lt (by omega)
      rw [if_pos (by omega)]
      rw [hmod]
    · rw [if_neg c1]
      by_cases c2 : k + m ≤ i ∧ i < k + 2 * m
      · have h1 : r'.getD (i - m) d = r.getD (i - m) d := hread (i - m) (by omega)
        have h2 : r'.getD i d = r.getD i d := hread i (by omega)
        rw [if_pos c2, h1, h2, if_pos (show i < (B + 1) * (2 * m) by omega)]
        unfold stageVal
        have hmod : i % (2 * m) = i - k := by
          have hik : i = B * (2 * m) + (i - k) := by omega
          conv_lhs => rw [hik]
          rw [Nat.mul_add_mod']
          exact Nat.mod_eq_of_lt (by omega)
        rw [if_neg (by omega), hmod]
      · rw [if_neg c2, ih hB' i]
        by_cases c3 : i < k
        · rw [if_pos (show i < B * (2 * m) by omega)]
          rw [if_pos (show i < (B + 1) * (2 * m) by omega)]
        · rw [if_neg (show ¬ i < B * (2 * m) by omega)]
          rw [if_neg (show ¬ i < (B + 1) * (2 * m) by omega)]

theorem pairStage_getD (m : Nat) (hm : 0 < m) (r : List α) (hdvd : 2 * m ∣ r.length)
    (i : Nat) (hi : i < r.length) :
    (pairStage d f m r.length r).getD i d = stageVal d f m r i := by
  unfold pairStage
  obtain ⟨B, hB⟩ := hdvd
  have hB2 : r.length = B * (2 * m) := by rw [hB]; ring
  have hq : r.length / (2 * m) = B := by
    rw [hB, Nat.mul_div_cancel_left B (by omega)]
  rw [hq]
  rw [pairStageAux_getD d f m hm r B (by omega) i]
  rw [if_pos (by omega)]

end PairStage



/-! ## `ntt_transform` and `intt_transform` (src/utils.py lines 112-193)

Note the source applies the Cooley-Tukey stages directly to `poly.copy()`
with **no** initial bit-reversal permutation, and the Gentleman-Sande
stages in the reverse stage order followed by scaling with `n⁻¹`.
An empty input is `none` because `int(np.log2(0))` raises `OverflowError`.
The `omega ** i` tables are `pow(omega, i, modulus)` entries. -/

theorem nextPow2Go_pow : ∀ fl j n, n ≤ 2 ^ j * 2 ^ fl →
    ∃ k, nextPow2Go fl n (2 ^ j) = 2 ^ k ∧ n ≤ 2 ^ k := by
  intro fl
  induction fl with
  | zero =>
    intro j n h
    simp only [pow_zero, mul_one] at h
    exact ⟨j, rfl, h⟩
  | succ fl ih =>
    intro j n h
    rw [nextPow2Go]
    by_cases hc : 2 ^ j < n
    · rw [if_pos hc]
      have h2 : 2 * 2 ^ j = 2 ^ (j + 1) := by ring
      rw [h2]
      exact ih (j + 1) n (by
        have : 2 ^ (j + 1) * 2 ^ fl = 2 ^ j * 2 ^ (fl + 1) := by ring
        omega)
    · rw [if_neg hc]
      exact ⟨j, rfl, by omega⟩

theorem nextPow2_pow (n : Nat) : ∃ k, nextPow2 n = 2 ^ k ∧ n ≤ 2 ^ k := by
  have h : n ≤ 2 ^ 0 * 2 ^ n := by
    have := Nat.lt_two_pow n
    omega
  have := nextPow2Go_pow n 0 n h
  simpa [nextPow2] using this

theorem nextPow2Go_fixed : ∀ fl j k, j ≤ k → k - j ≤ fl →
    nextPow2Go fl (2 ^ k) (2 ^ j) = 2 ^ k := by
  intro fl
  induction fl with
  | zero =>
    intro j k h1 h2
    have : j = k := by omega
    subst this
    rfl
  | succ fl ih =>
    intro j k h1 h2
    rw [nextPow2Go]
    by_cases hc : 2 ^ j < 2 ^ k
    · rw [if_pos hc]
      have hjk : j < k := by
        by_contra hjk
        have : k = j := by omega
        subst this
        omega
      have h2' : 2 * 2 ^ j = 2 ^ (j + 1) := by ring
      rw [h2']
      exact ih (j + 1) k (by omega) (by omega)
    · rw [if_neg hc]
      have : k ≤ j := by
        by_contra hh
        exact hc (Nat.pow_lt_pow_right (by norm_num) (by omega))
      have : j = k := by omega
      subst this
      rfl

theorem nextPow2_of_pow (k : Nat) : nextPow2 (2 ^ k) = 2 ^ k := by
  have h := nextPow2Go_fixed (2 ^ k) 0 k (by omega) (by
    have := Nat.lt_two_pow k
    omega)
  simpa [nextPow2] using h

/-! ## Index arithmetic for butterfly partners -/

theorem partner_mod_lo (m i : Nat) (hm : 0 < m) (h : i % (2 * m) < m) :
    (i + m) % (2 * m) = i % (2 * m) + m := by
  have h1 := Nat.div_add_mod i (2 * m)
  have h2 : i + m = 2 * m * (i / (2 * m)) + (i % (2 * m) + m) := by omega
  conv_lhs => rw [h2]
  rw [Nat.mul_add_mod]
  exact Nat.mod_eq_of_lt (by omega)

theorem partner_mod_hi (m i : Nat) (hm : 0 < m) (h1 : m ≤ i % (2 * m)) :
    (i - m) % (2 * m) = i % (2 * m) - m := by
  have h2 := Nat.div_add_mod i (2 * m)
  have h3 : i % (2 * m) < 2 * m := Nat.mod_lt _ (by omega)
  have h4 : i - m = 2 * m * (i / (2 * m)) + (i % (2 * m) - m) := by omega
  conv_lhs => rw [h4]
  rw [Nat.mul_add_mod]
  exact Nat.mod_eq_of_lt (by omega)

theorem partner_lt (m len i : Nat) (hm : 0 < m) (hdvd : 2 * m ∣ len) (hi : i < len)
    (h : i % (2 * m) < m) : i + m < len := by
  obtain ⟨B, hB⟩ := hdvd
  have hB2 : len = B * (2 * m) := by rw [hB]; ring
  have h1 := Nat.div_add_mod i (2 * m)
  have h2 : i / (2 * m) < B := (Nat.div_lt_iff_lt_mul (by omega)).mpr (by omega)
  have h3 : (i / (2 * m) + 1) * (2 * m) ≤ B * (2 * m) := Nat.mul_le_mul_right _ (by omega)
  have h4 : (i / (2 * m) + 1) * (2 * m) = i / (2 * m) * (2 * m) + 2 * m := Nat.succ_mul _ _
  have h5 : i / (2 * m) * (2 * m) = 2 * m * (i / (2 * m)) := Nat.mul_comm _ _
  omega

/-! ## The transforms over `ZMod q`

The Python loops update coefficients reduced with `% q`; over `ZMod q`
the same butterflies become pure field operations, which is where the
inverse/forward cancellation is proved.  `stageZ` is the closed form of
one stage (`stageVal`) applied at every position. -/





section ZModStage

variable {q : Nat}

theorem stageZ_length (g : Nat → ZMod q → ZMod q → ZMod q × ZMod q) (m : Nat)
    (r : List (ZMod q)) : (stageZ g m r).length = r.length := by
  simp [stageZ]

theorem stageZ_getD (g : Nat → ZMod q → ZMod q → ZMod q × ZMod q) (m : Nat)
    (r : List (ZMod q)) (i : Nat) (hi : i < r.length) :
    (stageZ g m r).getD i 0 = stageVal 0 g m r i :=
  getD_range_map _ _ _ hi

theorem list_eq_of_getD {α : Type} [Zero α] (l1 l2 : List α) (hlen : l1.length = l2.length)
    (h : ∀ i, i < l1.length → l1.getD i 0 = l2.getD i 0) : l1 = l2 := by
  apply List.ext_getElem hlen
  intro i h1 h2
  have := h i h1
  rwa [List.getD_eq_getElem l1 0 h1, List.getD_eq_getElem l2 0 h2] at this

/-- One Gentleman-Sande stage undoes one Cooley-Tukey stage with the same
half-block size up to a global factor 2, provided the paired twiddles
multiply to 1. -/
theorem stageZ_gs_ct (m : Nat) (hm : 0 < m) (r : List (ZMod q)) (hdvd : 2 * m ∣ r.length)
    (W W' : Nat → ZMod q) (hW : ∀ j, j < m → W j * W' j = 1) :
    stageZ (gsZ W') m (stageZ (ctZ W) m r) = r.map (fun x => 2 * x) := by
  set s := stageZ (ctZ W) m r with hs
  have hslen : s.length = r.length := stageZ_length _ _ _
  apply list_eq_of_getD
  · rw [stageZ_length, hslen, List.length_map]
  · intro i hi
    rw [stageZ_length, hslen] at hi
    have hi' : i < s.length := by omega
    rw [stageZ_getD _ _ _ _ hi']
    rw [getD_map_zero (fun x => 2 * x) (by ring) r i]
    have hmod2 : i % (2 * m) < 2 * m := Nat.mod_lt _ (by omega)
    by_cases hc : i % (2 * m) < m
    · -- lower half of a pair: output is u' + v' = 2 * r_i
      have hpartner : i + m < r.length := partner_lt m r.length i hm hdvd hi hc
      unfold stageVal
      rw [if_pos hc]
      have hsi : s.getD i 0 = (ctZ W (i % (2 * m)) (r.getD i 0) (r.getD (i + m) 0)).1 := by
        rw [hs, stageZ_getD _ _ _ _ hi]
        unfold stageVal
        rw [if_pos hc]
      have hsi2 : s.getD (i + m) 0 =
          (ctZ W (i % (2 * m)) (r.getD i 0) (r.getD (i + m) 0)).2 := by
        rw [hs, stageZ_getD _ _ _ _ (by omega)]
        unfold stageVal
        have hpm := partner_mod_lo m i hm hc
        rw [if_neg (by omega), hpm]
        have e1 : i % (2 * m) + m - m = i % (2 * m) := by omega
        have e2 : i + m - m = i := by omega
        rw [e1, e2]
      rw [hsi, hsi2]
      unfold ctZ gsZ
      ring
    · -- upper half of a pair: output is (u' - v') * W' = 2 * r_i
      have him : m ≤ i := by
        have := Nat.mod_le i (2 * m)
        omega
      have hineg : i - m < r.length := by omega
      unfold stageVal
      rw [if_neg hc]
      have hj : i % (2 * m) - m < m := by omega
      have hpm := partner_mod_hi m i hm (by omega)
      have hsub : i - m + m = i := by omega
      have hsi : s.getD (i - m) 0 =
          (ctZ W (i % (2 * m) - m) (r.getD (i - m) 0) (r.getD i 0)).1 := by
        rw [hs, stageZ_getD _ _ _ _ (by omega : i - m < r.length)]
        unfold stageVal
        rw [hpm, if_pos hj, hsub]
      have hsi2 : s.getD i 0 =
          (ctZ W (i % (2 * m) - m) (r.getD (i - m) 0) (r.getD i 0)).2 := by
        rw [hs, stageZ_getD _ _ _ _ hi]
        unfold stageVal
        rw [if_neg hc]
      rw [hsi, hsi2]
      have hWj := hW (i % (2 * m) - m) hj
      unfold ctZ gsZ
      calc ((r.getD (i - m) 0 + r.getD i 0 * W (i % (2 * m) - m)) -
              (r.getD (i - m) 0 - r.getD i 0 * W (i % (2 * m) - m))) * W' (i % (2 * m) - m)
          = r.getD i 0 * (W (i % (2 * m) - m) * W' (i % (2 * m) - m)) * 2 := by ring
        _ = r.getD i 0 * 1 * 2 := by rw [hWj]
        _ = 2 * r.getD i 0 := by ring

end ZModStage



theorem stageZ_gs_linear {q : Nat} (W' : Nat → ZMod q) (m : Nat) (r : List (ZMod q))
    (c : ZMod q) :
    stageZ (gsZ W') m (r.map (fun x => c * x)) = (stageZ (gsZ W') m r).map (fun x => c * x) := by
  apply list_eq_of_getD
  · rw [stageZ_length, List.length_map, List.length_map, stageZ_length]
  · intro i hi
    rw [stageZ_length, List.length_map] at hi
    rw [stageZ_getD _ _ _ _ (by rw [List.length_map]; exact hi)]
    rw [getD_map_zero (fun x => c * x) (by ring) _ i, stageZ_getD _ _ _ _ hi]
    unfold stageVal
    by_cases hc : i % (2 * m) < m
    · rw [if_pos hc, if_pos hc,
        getD_map_zero (fun x => c * x) (by ring) _ i,
        getD_map_zero (fun x => c * x) (by ring) _ (i + m)]
      unfold gsZ
      ring
    · rw [if_neg hc, if_neg hc,
        getD_map_zero (fun x => c * x) (by ring) _ (i - m),
        getD_map_zero (fun x => c * x) (by ring) _ i]
      unfold gsZ
      ring

theorem foldl_stageZ_length {q : Nat} (G : Nat → Nat → ZMod q → ZMod q → ZMod q × ZMod q)
    (M : Nat → Nat) :
    ∀ (l : List Nat) (r : List (ZMod q)),
      (l.foldl (fun r s => stageZ (G s) (M s) r) r).length = r.length := by
  intro l
  induction l with
  | nil => intro r; rfl
  | cons x xs ih => intro r; rw [List.foldl_cons, ih, stageZ_length]

theorem foldl_gs_map {q : Nat} (W' : Nat → Nat → ZMod q) (c : ZMod q) :
    ∀ (l : List Nat) (r : List (ZMod q)),
      l.foldl (fun r s => stageZ (gsZ (W' s)) (2 ^ s) r) (r.map (fun x => c * x)) =
      (l.foldl (fun r s => stageZ (gsZ (W' s)) (2 ^ s) r) r).map (fun x => c * x) := by
  intro l
  induction l with
  | nil => intro r; rfl
  | cons x xs ih =>
    intro r
    rw [List.foldl_cons, List.foldl_cons, stageZ_gs_linear, ih]

/-- Over `ZMod q`, running all Gentleman-Sande stages (in decreasing stage
order) after all Cooley-Tukey stages (in increasing stage order) multiplies
every coefficient by `2 ^ L`, whenever the paired twiddles cancel. -/
theorem stagesZ_roundtrip {q : Nat} (n : Nat) (W W' : Nat → Nat → ZMod q) :
    ∀ (L : Nat) (r : List (ZMod q)), r.length = n →
      (∀ s, s < L → 2 * 2 ^ s ∣ n) →
      (∀ s j, s < L → j < 2 ^ s → W s j * W' s j = 1) →
      (List.range L).reverse.foldl (fun r s => stageZ (gsZ (W' s)) (2 ^ s) r)
        ((List.range L).foldl (fun r s => stageZ (ctZ (W s)) (2 ^ s) r) r)
      = r.map (fun x => (2 ^ L : ZMod q) * x) := by
  intro L
  induction L with
  | zero =>
    intro r _ _ _
    simp
  | succ L ih =>
    intro r hlen hdvd hW
    have hrev : (List.range (L + 1)).reverse = L :: (List.range L).reverse := by
      rw [List.range_succ, List.reverse_append]
      rfl
    rw [hrev, List.foldl_cons, List.range_succ, List.foldl_append, List.foldl_cons,
      List.foldl_nil]
    have hxlen : ((List.range L).foldl (fun r s => stageZ (ctZ (W s)) (2 ^ s) r) r).length
        = n := by
      rw [foldl_stageZ_length]
      exact hlen
    rw [stageZ_gs_ct (2 ^ L) (Nat.pos_pow_of_pos L (by norm_num)) _
      (by rw [hxlen]; exact hdvd L (by omega)) (W L) (W' L)
      (fun j hj => hW L j (by omega) hj)]
    rw [foldl_gs_map]
    rw [ih r hlen (fun s hs => hdvd s (by omega)) (fun s j hs hj => hW s j (by omega) hj)]
    rw [List.map_map]
    apply List.map_congr_left
    intro x _
    simp only [Function.comp_apply]
    ring

/-! ## Casting the integer-level stages to `ZMod q` -/

theorem pairStage_cast {q : Nat} (f : Nat → Int → Int → Int × Int)
    (g : Nat → ZMod q → ZMod q → ZMod q × ZMod q)
    (hfg : ∀ j u v, (((f j u v).1 : Int) : ZMod q) = (g j (u : ZMod q) (v : ZMod q)).1 ∧
                    (((f j u v).2 : Int) : ZMod q) = (g j (u : ZMod q) (v : ZMod q)).2)
    (m : Nat) (hm : 0 < m) (r : List Int) (hdvd : 2 * m ∣ r.length) :
    (pairStage 0 f m r.length r).map (fun x : Int => (x : ZMod q)) =
      stageZ g m (r.map (fun x : Int => (x : ZMod q))) := by
  apply list_eq_of_getD
  · rw [List.length_map, pairStage_length, stageZ_length, List.length_map]
  · intro i hi
    rw [List.length_map, pairStage_length] at hi
    rw [getD_map_zero (fun x : Int => (x : ZMod q)) (by simp) _ i,
      pairStage_getD 0 f m hm r hdvd i hi,
      stageZ_getD _ _ _ _ (by rw [List.length_map]; exact hi)]
    unfold stageVal
    by_cases hc : i % (2 * m) < m
    · rw [if_pos hc, if_pos hc,
        getD_map_zero (fun x : Int => (x : ZMod q)) (by simp) _ i,
        getD_map_zero (fun x : Int => (x : ZMod q)) (by simp) _ (i + m)]
      exact (hfg _ _ _).1
    · rw [if_neg hc, if_neg hc,
        getD_map_zero (fun x : Int => (x : ZMod q)) (by simp) _ (i - m),
        getD_map_zero (fun x : Int => (x : ZMod q)) (by simp) _ i]
      exact (hfg _ _ _).2

theorem nttButterfly_cast (q : Nat) (omegas : List Int) (n m : Nat) (j : Nat) (u v : Int) :
    (((nttButterfly (q : Int) omegas n m j u v).1 : Int) : ZMod q) =
      (ctZ (fun j => ((omegas.getD (j * (n / (2 * m))) 0 : Int) : ZMod q)) j
        (u : ZMod q) (v : ZMod q)).1 ∧
    (((nttButterfly (q : Int) omegas n m j u v).2 : Int) : ZMod q) =
      (ctZ (fun j => ((omegas.getD (j * (n / (2 * m))) 0 : Int) : ZMod q)) j
        (u : ZMod q) (v : ZMod q)).2 := by
  unfold nttButterfly ctZ
  constructor
  · simp only [ZMod.intCast_mod]
    push_cast
    ring
  · simp only [ZMod.intCast_mod]
    push_cast
    ring

theorem inttButterfly_cast (q : Nat) (omegasInv : List Int) (n m : Nat) (j : Nat) (u v : Int) :
    (((inttButterfly (q : Int) omegasInv n m j u v).1 : Int) : ZMod q) =
      (gsZ (fun j => ((omegasInv.getD (j * (n / (2 * m))) 0 : Int) : ZMod q)) j
        (u : ZMod q) (v : ZMod q)).1 ∧
    (((inttButterfly (q : Int) omegasInv n m j u v).2 : Int) : ZMod q) =
      (gsZ (fun j => ((omegasInv.getD (j * (n / (2 * m))) 0 : Int) : ZMod q)) j
        (u : ZMod q) (v : ZMod q)).2 := by
  unfold inttButterfly gsZ
  constructor
  · simp only [ZMod.intCast_mod]
    push_cast
    ring
  · simp only [ZMod.intCast_mod]
    push_cast
    ring

theorem two_pow_and_pred (k : Nat) : 2 ^ k &&& (2 ^ k - 1) = 0 := by
  apply Nat.eq_of_testBit_eq
  intro i
  rw [Nat.testBit_and, Nat.testBit_two_pow, Nat.testBit_two_pow_sub_one, Nat.zero_testBit]
  by_cases h : k = i
  · subst h
    simp
  · simp [h]

theorem foldl_pairStage_length (F : Nat → Nat → Int → Int → Int × Int) (M : Nat → Nat)
    (nn : Nat) :
    ∀ (l : List Nat) (r : List Int),
      (l.foldl (fun r s => pairStage 0 (F s) (M s) nn r) r).length = r.length := by
  intro l
  induction l with
  | nil => intro r; rfl
  | cons x xs ih => intro r; rw [List.foldl_cons, ih, pairStage_length]

theorem nttFold_cast (q : Nat) (omegas : List Int) (n : Nat) :
    ∀ (l : List Nat) (r : List Int), r.length = n → (∀ s ∈ l, 2 * 2 ^ s ∣ n) →
      ((l.foldl (fun r s => pairStage 0 (nttButterfly (q : Int) omegas n (2 ^ s)) (2 ^ s) n r)
          r).map (fun x : Int => (x : ZMod q))) =
      l.foldl (fun rr s => stageZ (ctZ (fun j =>
          ((omegas.getD (j * (n / (2 * 2 ^ s))) 0 : Int) : ZMod q))) (2 ^ s) rr)
        (r.map (fun x : Int => (x : ZMod q))) := by
  intro l
  induction l with
  | nil => intro r _ _; rfl
  | cons s ss ih =>
    intro r hlen hdvd
    rw [List.foldl_cons, List.foldl_cons]
    have hsl : (pairStage 0 (nttButterfly (q : Int) omegas n (2 ^ s)) (2 ^ s) n r).length
        = r.length := pairStage_length _ _ _ _ _
    rw [ih _ (by rw [hsl]; exact hlen) (fun t ht => hdvd t (List.mem_cons_of_mem _ ht))]
    congr 1
    have hd : 2 * 2 ^ s ∣ r.length := by rw [hlen]; exact hdvd s (List.mem_cons_self _ _)
    have hcast := pairStage_cast (nttButterfly (q : Int) omegas n (2 ^ s))
      (ctZ (fun j => ((omegas.getD (j * (n / (2 * 2 ^ s))) 0 : Int) : ZMod q)))
      (fun j u v => nttButterfly_cast q omegas n (2 ^ s) j u v)
      (2 ^ s) (Nat.pos_pow_of_pos s (by norm_num)) r hd
    rw [← hcast]
    congr 1
    rw [hlen]

theorem inttFold_cast (q : Nat) (omegasInv : List Int) (n : Nat) :
    ∀ (l : List Nat) (r : List Int), r.length = n → (∀ s ∈ l, 2 * 2 ^ s ∣ n) →
      ((l.foldl (fun r s => pairStage 0 (inttButterfly (q : Int) omegasInv n (2 ^ s)) (2 ^ s) n r)
          r).map (fun x : Int => (x : ZMod q))) =
      l.foldl (fun rr s => stageZ (gsZ (fun j =>
          ((omegasInv.getD (j * (n / (2 * 2 ^ s))) 0 : Int) : ZMod q))) (2 ^ s) rr)
        (r.map (fun x : Int => (x : ZMod q))) := by
  intro l
  induction l with
  | nil => intro r _ _; rfl
  | cons s ss ih =>
    intro r hlen hdvd
    rw [List.foldl_cons, List.foldl_cons]
    have hsl : (pairStage 0 (inttButterfly (q : Int) omegasInv n (2 ^ s)) (2 ^ s) n r).length
        = r.length := pairStage_length _ _ _ _ _
    rw [ih _ (by rw [hsl]; exact hlen) (fun t ht => hdvd t (List.mem_cons_of_mem _ ht))]
    congr 1
    have hd : 2 * 2 ^ s ∣ r.length := by rw [hlen]; exact hdvd s (List.mem_cons_self _ _)
    have hcast := pairStage_cast (inttButterfly (q : Int) omegasInv n (2 ^ s))
      (gsZ (fun j => ((omegasInv.getD (j * (n / (2 * 2 ^ s))) 0 : Int) : ZMod q)))
      (fun j u v => inttButterfly_cast q omegasInv n (2 ^ s) j u v)
      (2 ^ s) (Nat.pos_pow_of_pos s (by norm_num)) r hd
    rw [← hcast]
    congr 1
    rw [hlen]

/-- The returned `some` shapes of the two transforms, for use in the
round-trip proof. -/
theorem ntt_transform_eq (p : List Int) (q : Nat) (g : Nat)
    (hn0 : p.length ≠ 0) (hand : p.length &&& (p.length - 1) = 0)
    (hfpr : find_primitive_root q = some g) :
    ntt_transform p q = some (nttStages (q : Int)
      ((List.range p.length).map (fun i =>
        (pyPowMod (pyPowMod g ((q - 1) / p.length) q) i q : Int)))
      p.length (floorLog2 p.length) p) := by
  simp only [ntt_transform]
  rw [if_neg hn0, if_neg (by simp [hand]), hfpr, Option.some_bind]

theorem intt_transform_eq (t : List Int) (q : Nat) (g oinv ninv : Nat)
    (hn0 : t.length ≠ 0) (hand : t.length &&& (t.length - 1) = 0)
    (hfpr : find_primitive_root q = some g)
    (hoinv : pyInvMod (pyPowMod g ((q - 1) / t.length) q) q = some oinv)
    (hninv : pyInvMod t.length q = some ninv) :
    intt_transform t q = some ((inttStages (q : Int)
      ((List.range t.length).map (fun i => (pyPowMod oinv i q : Int)))
      t.length (floorLog2 t.length) t).map (fun x => x * (ninv : Int) % (q : Int))) := by
  simp only [intt_transform]
  rw [if_neg hn0, if_neg (by simp [hand]), hfpr, Option.some_bind, hoinv, Option.some_bind,
    hninv, Option.some_bind]

/-- Main inversion property: for every odd prime modulus and every
power-of-two length, the Gentleman-Sande inverse transform recovers the
input of the Cooley-Tukey forward transform exactly, for coefficients
already reduced to `[0, q)`.  No property of the twiddle base `omega`
beyond invertibility mod `q` is needed. -/
theorem ntt_intt_roundtrip (q k : Nat) (hq : q.Prime) (hq2 : q ≠ 2) (p : List Int)
    (hlen : p.length = 2 ^ k) (hrange : ∀ x ∈ p, 0 ≤ x ∧ x < (q : Int)) :
    (ntt_transform p q).bind (fun t => intt_transform t q) = some p := by
  haveI : Fact q.Prime := ⟨hq⟩
  haveI : NeZero q := ⟨by have := hq.two_le; omega⟩
  have hq1 : 1 < q := hq.one_lt
  have hqI : (0 : Int) < (q : Int) := by exact_mod_cast Nat.lt_of_lt_of_le Nat.zero_lt_one hq1.le
  obtain ⟨g, hfpr, hg0, hgq, hgnd⟩ := find_primitive_root_success q hq hq2
  have hn0 : p.length ≠ 0 := by
    rw [hlen]
    exact (Nat.pos_pow_of_pos k (by norm_num)).ne'
  have hand : p.length &&& (p.length - 1) = 0 := by rw [hlen]; exact two_pow_and_pred k
  have hL : floorLog2 p.length = k := by rw [hlen]; exact floorLog2_pow k
  set n := p.length with hn
  -- the omega table of the forward transform
  set om : Nat := pyPowMod g ((q - 1) / n) q with hom
  set omegas : List Int := (List.range n).map (fun i => (pyPowMod om i q : Int)) with homegas
  set t : List Int := nttStages (q : Int) omegas n (floorLog2 n) p with ht
  have hntt : ntt_transform p q = some t := ntt_transform_eq p q g hn0 hand hfpr
  have htlen : t.length = n := by
    rw [ht]
    unfold nttStages
    rw [foldl_pairStage_length (fun s => nttButterfly (q : Int) omegas n (2 ^ s))
      (fun s => 2 ^ s) n (List.range (floorLog2 n)) p]
  -- omega is invertible mod q
  have homZ : ((om : Nat) : ZMod q) = ((g : ZMod q)) ^ ((q - 1) / n) := by
    rw [hom, pyPowMod_eq, ZMod.natCast_mod, Nat.cast_pow]
  have hgZ : (g : ZMod q) ≠ 0 := by
    intro hz
    exact hgnd ((ZMod.natCast_zmod_eq_zero_iff_dvd g q).mp hz)
  have homne : ¬ q ∣ om := by
    intro hdvd
    have : ((om : Nat) : ZMod q) = 0 := (ZMod.natCast_zmod_eq_zero_iff_dvd om q).mpr hdvd
    rw [homZ] at this
    exact pow_ne_zero _ hgZ this
  have hgcdom : Nat.gcd om q = 1 :=
    Nat.coprime_comm.mp ((Nat.Prime.coprime_iff_not_dvd hq).mpr homne)
  obtain ⟨oinv, hoinv⟩ : ∃ v, pyInvMod om q = some v := by
    have := pyInvMod_isSome om q hgcdom
    exact Option.isSome_iff_exists.mp this
  have hgcdn : Nat.gcd n q = 1 := by
    have h2 : Nat.Coprime q 2 := (Nat.Prime.coprime_iff_not_dvd hq).mpr (by
      intro hdvd
      have := Nat.le_of_dvd (by norm_num) hdvd
      interval_cases q
      · exact hq2 rfl)
    have := Nat.Coprime.pow_right k h2
    rw [hlen]
    exact Nat.coprime_comm.mp this
  obtain ⟨ninv, hninv⟩ : ∃ v, pyInvMod n q = some v := by
    have := pyInvMod_isSome n q hgcdn
    exact Option.isSome_iff_exists.mp this
  set omegasInv : List Int := (List.range n).map (fun i => (pyPowMod oinv i q : Int))
    with homegasInv
  have htand : t.length &&& (t.length - 1) = 0 := by rw [htlen]; exact hand
  have hintt : intt_transform t q = some ((inttStages (q : Int) omegasInv n
      (floorLog2 n) t).map (fun x => x * (ninv : Int) % (q : Int))) := by
    have h := intt_transform_eq t q g oinv ninv (by rw [htlen]; exact hn0) htand hfpr
      (by rw [htlen]; exact hoinv) (by rw [htlen]; exact hninv)
    rw [h, htlen]
  rw [hntt, Option.some_bind, hintt]
  congr 1
  -- it remains to show that the scaled inverse output is p itself
  set X : List Int := inttStages (q : Int) omegasInv n (floorLog2 n) t with hX
  have hXlen : X.length = n := by
    rw [hX]
    unfold inttStages
    rw [foldl_pairStage_length (fun s => inttButterfly (q : Int) omegasInv n (2 ^ s))
      (fun s => 2 ^ s) n ((List.range (floorLog2 n)).reverse) t, htlen]
  -- twiddle cancellation over ZMod q
  have homul : ((om : Nat) : ZMod q) * ((oinv : Nat) : ZMod q) = 1 := by
    have hmul := pyInvMod_mul om q oinv (by omega) hoinv
    have hc : ((om * oinv % q : Nat) : ZMod q) = ((1 % q : Nat) : ZMod q) := by rw [hmul]
    rw [ZMod.natCast_mod, ZMod.natCast_mod, Nat.cast_mul, Nat.cast_one] at hc
    exact hc
  have hW : ∀ s j, s < k → j < 2 ^ s →
      ((omegas.getD (j * (n / (2 * 2 ^ s))) 0 : Int) : ZMod q) *
      ((omegasInv.getD (j * (n / (2 * 2 ^ s))) 0 : Int) : ZMod q) = 1 := by
    intro s j hs hj
    have h2s : 2 * 2 ^ s = 2 ^ (s + 1) := by ring
    have hdiv : n / (2 * 2 ^ s) = 2 ^ (k - (s + 1)) := by
      rw [h2s, hlen]
      exact Nat.pow_div (by omega) (by norm_num)
    have hidx : j * (n / (2 * 2 ^ s)) < n := by
      rw [hdiv, hlen]
      have h1 : j * 2 ^ (k - (s + 1)) < 2 ^ s * 2 ^ (k - (s + 1)) :=
        mul_lt_mul_of_pos_right hj (Nat.pos_pow_of_pos _ (by norm_num))
      have h2 : 2 ^ s * 2 ^ (k - (s + 1)) = 2 ^ (k - 1) := by
        rw [← pow_add]
        congr 1
        omega
      have h3 : 2 ^ (k - 1) ≤ 2 ^ k := Nat.pow_le_pow_right (by norm_num) (by omega)
      omega
    rw [homegas, homegasInv, getD_range_map _ _ _ hidx, getD_range_map _ _ _ hidx]
    rw [Int.cast_natCast, Int.cast_natCast, pyPowMod_eq, pyPowMod_eq,
      ZMod.natCast_mod, ZMod.natCast_mod, Nat.cast_pow, Nat.cast_pow, ← mul_pow, homul,
      one_pow]
  -- cast the whole pipeline to ZMod q
  have hcast1 : t.map (fun x : Int => (x : ZMod q)) =
      (List.range k).foldl (fun rr s => stageZ (ctZ (fun j =>
        ((omegas.getD (j * (n / (2 * 2 ^ s))) 0 : Int) : ZMod q))) (2 ^ s) rr)
        (p.map (fun x : Int => (x : ZMod q))) := by
    rw [ht]
    unfold nttStages
    rw [hL]
    exact nttFold_cast q omegas n (List.range k) p hn.symm (by
      intro s hs
      rw [List.mem_range] at hs
      rw [show 2 * 2 ^ s = 2 ^ (s + 1) by ring, hlen]
      exact pow_dvd_pow 2 (by omega))
  have hcast2 : X.map (fun x : Int => (x : ZMod q)) =
      (List.range k).reverse.foldl (fun rr s => stageZ (gsZ (fun j =>
        ((omegasInv.getD (j * (n / (2 * 2 ^ s))) 0 : Int) : ZMod q))) (2 ^ s) rr)
        (t.map (fun x : Int => (x : ZMod q))) := by
    rw [hX]
    unfold inttStages
    rw [hL]
    exact inttFold_cast q omegasInv n ((List.range k).reverse) t htlen (by
      intro s hs
      rw [List.mem_reverse, List.mem_range] at hs
      rw [show 2 * 2 ^ s = 2 ^ (s + 1) by ring, hlen]
      exact pow_dvd_pow 2 (by omega))
  have hround : X.map (fun x : Int => (x : ZMod q)) =
      (p.map (fun x : Int => (x : ZMod q))).map (fun x => (2 ^ k : ZMod q) * x) := by
    rw [hcast2, hcast1]
    exact stagesZ_roundtrip n
      (fun s j => ((omegas.getD (j * (n / (2 * 2 ^ s))) 0 : Int) : ZMod q))
      (fun s j => ((omegasInv.getD (j * (n / (2 * 2 ^ s))) 0 : Int) : ZMod q))
      k (p.map (fun x : Int => (x : ZMod q))) (by rw [List.length_map])
      (fun s hs => by
        rw [show 2 * 2 ^ s = 2 ^ (s + 1) by ring, hlen]
        exact pow_dvd_pow 2 (by omega))
      (fun s j hs hj => hW s j hs hj)
  -- the scale factor cancels: (2^k) * ninv = 1 in ZMod q
  have hscale : ((2 : ZMod q) ^ k) * ((ninv : Nat) : ZMod q) = 1 := by
    have hmul := pyInvMod_mul n q ninv (by omega) hninv
    have hc : ((n * ninv % q : Nat) : ZMod q) = ((1 % q : Nat) : ZMod q) := by rw [hmul]
    rw [ZMod.natCast_mod, ZMod.natCast_mod, Nat.cast_mul, Nat.cast_one] at hc
    rw [← hc, hlen]
    push_cast
    ring
  -- conclude entrywise
  apply list_eq_of_getD
  · rw [List.length_map, hXlen, hn]
  · intro i hi
    rw [List.length_map, hXlen] at hi
    have hip : i < p.length := by omega
    rw [getD_map_zero (fun x => x * (ninv : Int) % (q : Int)) (by simp) X i]
    have hbound : 0 ≤ X.getD i 0 * (ninv : Int) % (q : Int) ∧
        X.getD i 0 * (ninv : Int) % (q : Int) < (q : Int) :=
      ⟨Int.emod_nonneg _ (by omega), Int.emod_lt_of_pos _ hqI⟩
    have hpmem : p.getD i 0 ∈ p := by
      rw [List.getD_eq_getElem p 0 hip]
      exact List.getElem_mem hip
    have hpbound := hrange _ hpmem
    -- equality of the casts
    have hcastX : (((X.getD i 0 * (ninv : Int) % (q : Int) : Int)) : ZMod q) =
        ((p.getD i 0 : Int) : ZMod q) := by
      have h1 : ((X.getD i 0 : Int) : ZMod q) =
          (2 ^ k : ZMod q) * ((p.getD i 0 : Int) : ZMod q) := by
        have h2 := congrArg (fun l => l.getD i (0 : ZMod q)) hround
        simp only at h2
        rw [getD_map_zero (fun x : Int => (x : ZMod q)) (by simp) X i] at h2
        rw [getD_map_zero (fun x : ZMod q => (2 ^ k : ZMod q) * x) (by ring) _ i] at h2
        rw [getD_map_zero (fun x : Int => (x : ZMod q)) (by simp) p i] at h2
        exact h2
      rw [ZMod.intCast_mod]
      push_cast
      rw [h1]
      calc (2 ^ k : ZMod q) * ((p.getD i 0 : Int) : ZMod q) * ((ninv : Nat) : ZMod q)
          = ((2 : ZMod q) ^ k * ((ninv : Nat) : ZMod q)) * ((p.getD i 0 : Int) : ZMod q) := by
            ring
        _ = ((p.getD i 0 : Int) : ZMod q) := by rw [hscale]; ring
    have hmodeq := (ZMod.intCast_eq_intCast_iff' _ _ _).mp hcastX
    have h5 : ((X.getD i 0 * (ninv : Int) % (q : Int)) % (q : Int)) =
        X.getD i 0 * (ninv : Int) % (q : Int) := Int.emod_emod_of_dvd _ dvd_rfl
    have h6 : p.getD i 0 % (q : Int) = p.getD i 0 := Int.emod_eq_of_lt hpbound.1 hpbound.2
    rw [h5, h6] at hmodeq
    exact hmodeq

/-! ## Specification oracles

These two definitions are written from the specification text, not from
the source, to serve as comparison points for the refinement claims. -/

/-- C2 (amended): for every **odd** prime modulus `q`, every power-of-two
length `n` with `q ≡ 1 (mod n)`, and every coefficient vector `p` of
length `n` with entries in `[0,q)`, `intt_transform (ntt_transform p q) q`
returns `p`.  (The amendment excludes `q = 2`, where the transform's
`omega` is `0` and `pow(omega, -1, 2)` raises `ValueError`; see the
counterexample.) -/
theorem C2_intt_ntt_roundtrip (p : List Int) (q k : Nat) (hq : q.Prime) (hq2 : q ≠ 2)
    (hlen : p.length = 2 ^ k) (hmod : q % p.length = 1 % p.length)
    (hrange : ∀ x ∈ p, 0 ≤ x ∧ x < (q : Int)) :
    (ntt_transform p q).bind (fun t => intt_transform t q) = some p :=
  ntt_intt_roundtrip q k hq hq2 p hlen hrange

/-- C2 counterexample: at the prime modulus `q = 2` with the power-of-two
length `n = 1 = 2^0` (and `2 ≡ 1 (mod 1)`), the round trip does not return
`p = [0]`: `intt_transform` fails because `omega = 0` is not invertible
mod 2, where the claim as stated requires the round trip to hold for every
prime `q`. -/
theorem C2_roundtrip_counterexample :
    Nat.Prime 2 ∧ (1 : Nat) = 2 ^ 0 ∧ 2 % 1 = 1 % 1 ∧
      (ntt_transform [(0 : Int)] 2).bind (fun t => intt_transform t 2) = none := by
  refine ⟨by norm_num, by decide, by decide, by decide⟩

theorem C2_intt_ntt_roundtrip_witness :
    Nat.Prime 17 ∧
      (ntt_transform [(1 : Int), 2, 3, 4, 0, 0, 0, 0] 17).bind
        (fun t => intt_transform t 17) = some [1, 2, 3, 4, 0, 0, 0, 0] :=
  ⟨by norm_num, C2_intt_ntt_roundtrip [1, 2, 3, 4, 0, 0, 0, 0] 17 3 (by norm_num)
    (by decide) (by decide) (by decide) (by decide)⟩

/-! ## Claim C1: `polynomial_multiply` versus the negacyclic oracle -/

/-- C1: at the spec's own concrete test case (n=8, q=17,
a=[1,2,3,4,0,0,0,0], b=[2,1,0,3,0,0,0,0]) the code returns
`[13,0,16,14,0,0,0,0]` while the schoolbook negacyclic convolution is
`[2,5,8,14,10,9,12,0]`: `polynomial_multiply` does **not** compute the
product modulo `x^n + 1` that its docstring and the spec prescribe (its
forward transform omits the bit-reversal permutation, so the pointwise
product is taken in a permuted, cyclic - not negacyclic - domain). -/
theorem C1_polynomial_multiply_not_negacyclic :
    polynomial_multiply [1, 2, 3, 4, 0, 0, 0, 0] [2, 1, 0, 3, 0, 0, 0, 0] 17 =
        some [13, 0, 16, 14, 0, 0, 0, 0] ∧
    negacyclic_convolution [1, 2, 3, 4, 0, 0, 0, 0] [2, 1, 0, 3, 0, 0, 0, 0] 17 =
        [2, 5, 8, 14, 10, 9, 12, 0] ∧
    polynomial_multiply [1, 2, 3, 4, 0, 0, 0, 0] [2, 1, 0, 3, 0, 0, 0, 0] 17 ≠
      some (negacyclic_convolution [1, 2, 3, 4, 0, 0, 0, 0] [2, 1, 0, 3, 0, 0, 0, 0] 17) := by
  refine ⟨by decide, by decide, by decide⟩

/-! ## Claim C5: the forward transform versus the reference DIT algorithm -/

theorem omega_gcd_one (q : Nat) (hq : q.Prime) (g e : Nat) (hgnd : ¬ q ∣ g) :
    Nat.gcd (pyPowMod g e q) q = 1 := by
  haveI : Fact q.Prime := ⟨hq⟩
  haveI : NeZero q := ⟨hq.pos.ne'⟩
  have hgZ : (g : ZMod q) ≠ 0 := fun hz => hgnd ((ZMod.natCast_zmod_eq_zero_iff_dvd g q).mp hz)
  have homZ : ((pyPowMod g e q : Nat) : ZMod q) = (g : ZMod q) ^ e := by
    rw [pyPowMod_eq, ZMod.natCast_mod, Nat.cast_pow]
  have hne : ¬ q ∣ pyPowMod g e q := by
    intro hdvd
    have h0 : ((pyPowMod g e q : Nat) : ZMod q) = 0 :=
      (ZMod.natCast_zmod_eq_zero_iff_dvd _ q).mpr hdvd
    rw [homZ] at h0
    exact pow_ne_zero _ hgZ h0
  exact Nat.coprime_comm.mp ((Nat.Prime.coprime_iff_not_dvd hq).mpr hne)

theorem pow2_gcd_one (q k : Nat) (hq : q.Prime) (hq2 : q ≠ 2) : Nat.gcd (2 ^ k) q = 1 := by
  have h2 : Nat.Coprime q 2 := (Nat.Prime.coprime_iff_not_dvd hq).mpr (by
    intro hdvd
    have := Nat.le_of_dvd (by norm_num) hdvd
    have := hq.two_le
    interval_cases q
    exact hq2 rfl)
  exact Nat.coprime_comm.mp (Nat.Coprime.pow_right k h2)

theorem ntt_transform_isSome (q k : Nat) (hq : q.Prime) (hq2 : q ≠ 2) (x : List Int)
    (hlen : x.length = 2 ^ k) : (ntt_transform x q).isSome := by
  obtain ⟨g, hfpr, _, _, _⟩ := find_primitive_root_success q hq hq2
  have hn0 : x.length ≠ 0 := by
    rw [hlen]
    exact (Nat.pos_pow_of_pos k (by norm_num)).ne'
  have hand : x.length &&& (x.length - 1) = 0 := by rw [hlen]; exact two_pow_and_pred k
  rw [ntt_transform_eq x q g hn0 hand hfpr]
  rfl

theorem intt_transform_isSome (q k : Nat) (hq : q.Prime) (hq2 : q ≠ 2) (x : List Int)
    (hlen : x.length = 2 ^ k) : (intt_transform x q).isSome := by
  obtain ⟨g, hfpr, hg0, hgq, hgnd⟩ := find_primitive_root_success q hq hq2
  have hn0 : x.length ≠ 0 := by
    rw [hlen]
    exact (Nat.pos_pow_of_pos k (by norm_num)).ne'
  have hand : x.length &&& (x.length - 1) = 0 := by rw [hlen]; exact two_pow_and_pred k
  have hom : Nat.gcd (pyPowMod g ((q - 1) / x.length) q) q = 1 := omega_gcd_one q hq g _ hgnd
  obtain ⟨oinv, hoinv⟩ := Option.isSome_iff_exists.mp (pyInvMod_isSome _ q hom)
  have hnn : Nat.gcd x.length q = 1 := by rw [hlen]; exact pow2_gcd_one q k hq hq2
  obtain ⟨ninv, hninv⟩ := Option.isSome_iff_exists.mp (pyInvMod_isSome _ q hnn)
  rw [intt_transform_eq x q g oinv ninv hn0 hand hfpr hoinv hninv]
  rfl

theorem ntt_transform_some_length (x : List Int) (q : Nat) (t : List Int)
    (h : ntt_transform x q = some t) : t.length = x.length := by
  simp only [ntt_transform] at h
  by_cases h0 : x.length = 0
  · rw [if_pos h0] at h
    simp at h
  rw [if_neg h0] at h
  by_cases h1 : x.length &&& (x.length - 1) ≠ 0
  · rw [if_pos h1] at h
    simp at h
  rw [if_neg h1] at h
  cases hf : find_primitive_root q with
  | none =>
    rw [hf] at h
    simp at h
  | some g =>
    rw [hf, Option.some_bind] at h
    rw [← Option.some_inj.mp h]
    unfold nttStages
    exact foldl_pairStage_length _ _ _ _ _

/-- C6 counterexample: `3` is not a power of two, yet
`polynomial_multiply` on equal-length-3 operands returns a result instead
of failing — the source only checks for mismatched lengths and silently
zero-pads a non-power-of-two length to the next power of two. -/
theorem C6_nonpow2_returns_value :
    (∀ j : Nat, (3 : Nat) ≠ 2 ^ j) ∧
    polynomial_multiply [(1 : Int), 0, 0] [(1 : Int), 0, 0] 17 = some [1, 0, 0] := by
  constructor
  · intro j
    rcases j with _ | _ | j
    · decide
    · decide
    · have h4 : 4 ≤ 2 ^ (j + 2) := by
        calc 4 = 2 ^ 2 := by norm_num
          _ ≤ 2 ^ (j + 2) := Nat.pow_le_pow_right (by norm_num) (by omega)
      omega
  · decide

/-- C6 (amended): for every odd prime modulus, `polynomial_multiply(a, b, q)`
raises exactly when `a` and `b` have different lengths.  Equal-length
inputs always produce a result: a non-power-of-two common length is not
rejected but silently zero-padded to the next power of two, and the
product is truncated back to the input length. -/
theorem C6_multiply_fails_iff_length_mismatch (a b : List Int) (q : Nat)
    (hq : q.Prime) (hq2 : q ≠ 2) :
    (polynomial_multiply a b q).isSome ↔ a.length = b.length := by
  constructor
  · intro h
    by_contra hne
    simp only [polynomial_multiply] at h
    rw [if_pos hne] at h
    simp at h
  · intro heq
    obtain ⟨kk, hk, hkge⟩ := nextPow2_pow a.length
    have hlena : (a ++ List.replicate (nextPow2 a.length - a.length) 0).length = 2 ^ kk := by
      rw [List.length_append, List.length_replicate]
      omega
    have hlenb : (b ++ List.replicate (nextPow2 a.length - a.length) 0).length = 2 ^ kk := by
      rw [List.length_append, List.length_replicate]
      omega
    simp only [polynomial_multiply]
    rw [if_neg (by omega : ¬ a.length ≠ b.length)]
    obtain ⟨A, hA⟩ := Option.isSome_iff_exists.mp
      (ntt_transform_isSome q kk hq hq2 _ hlena)
    obtain ⟨B, hB⟩ := Option.isSome_iff_exists.mp
      (ntt_transform_isSome q kk hq hq2 _ hlenb)
    rw [hA, Option.some_bind, hB, Option.some_bind]
    have hAl : A.length = 2 ^ kk := by rw [ntt_transform_some_length _ _ _ hA]; exact hlena
    have hBl : B.length = 2 ^ kk := by rw [ntt_transform_some_length _ _ _ hB]; exact hlenb
    have hzl : (List.zipWith (fun x y => x * y % (q : Int)) A B).length = 2 ^ kk := by
      rw [List.length_zipWith, hAl, hBl, Nat.min_self]
    obtain ⟨R, hR⟩ := Option.isSome_iff_exists.mp
      (intt_transform_isSome q kk hq hq2 _ hzl)
    rw [hR, Option.some_bind]
    rfl

theorem C6_multiply_fails_iff_length_mismatch_witness :
    Nat.Prime 17 ∧
      ((polynomial_multiply [(1 : Int), 2] [(3 : Int), 4] 17).isSome ↔
        ([(1 : Int), 2].length = [(3 : Int), 4].length)) :=
  ⟨by norm_num, C6_multiply_fails_iff_length_mismatch [1, 2] [3, 4] 17 (by norm_num)
    (by decide)⟩

/-! ## Claim C4: the hardcoded primitive-root constants -/

/-- C4 counterexample: `find_primitive_root(8380417)` returns the
hardcoded constant 1753, but 1753 is **not** a generator of the
multiplicative group: for the prime factor 3 of q−1,
`1753^((q−1)/3) ≡ 1 (mod q)` (1753 has multiplicative order 512, not
q−1). -/
theorem C4_dilithium_root_not_generator :
    find_primitive_root 8380417 = some 1753 ∧ Nat.Prime 3 ∧ 3 ∣ 8380417 - 1 ∧
      pyPowMod 1753 ((8380417 - 1) / 3) 8380417 = 1 := by
  refine ⟨by decide, by decide, by decide, by decide⟩

/-- C4 (amended): `find_primitive_root(3329) = 17` and
`find_primitive_root(8380417) = 1753`, but the latter constant is merely
hardcoded, not a verified generator: `8380416 = 2^13 · 3 · 11 · 31`, and
`1753^((q−1)/p) ≡ 1 (mod q)` for **every** prime factor
`p ∈ {2, 3, 11, 31}` of `q − 1` (indeed `1753^512 ≡ 1`). -/
theorem C4_primitive_root_constants :
    find_primitive_root 3329 = some 17 ∧
    find_primitive_root 8380417 = some 1753 ∧
    8380416 = 2 ^ 13 * 3 * 11 * 31 ∧
    (Nat.Prime 2 ∧ Nat.Prime 3 ∧ Nat.Prime 11 ∧ Nat.Prime 31) ∧
    pyPowMod 1753 512 8380417 = 1 ∧
    pyPowMod 1753 (8380416 / 2) 8380417 = 1 ∧
    pyPowMod 1753 (8380416 / 3) 8380417 = 1 ∧
    pyPowMod 1753 (8380416 / 11) 8380417 = 1 ∧
    pyPowMod 1753 (8380416 / 31) 8380417 = 1 := by
  refine ⟨by decide, by decide, by decide, ⟨by decide, by decide, by decide, by decide⟩,
    by decide, by decide, by decide, by decide, by decide⟩

/-! ## Claim C7: `mod_inverse` (src/utils.py lines 91-102)

```python
def mod_inverse(a, m):
    ... extended_gcd ...
    _, x, _ = extended_gcd(a, m)
    return (x % m + m) % m
```
There is no gcd check: the function never raises, whatever `gcd(a, m)`
is. -/

/-- C7 (amended, positive part): for `a ≥ 0`, `m > 0` with
`gcd(a, m) = 1`, `mod_inverse(a, m)` is the unique `x` in `[0, m)` with
`a·x ≡ 1 (mod m)`. -/
theorem C7_mod_inverse_correct (a m : Int) (ha : 0 ≤ a) (hm : 0 < m)
    (hg : Int.gcd a m = 1) :
    0 ≤ mod_inverse a m ∧ mod_inverse a m < m ∧
    a * mod_inverse a m % m = 1 % m ∧
    ∀ y : Int, 0 ≤ y → y < m → a * y % m = 1 % m → y = mod_inverse a m := by
  obtain ⟨hgcd, hbez⟩ := extended_gcd_spec (a.natAbs + 1) a m ha hm (by omega)
  set r := extended_gcd (a.natAbs + 1) a m with hr
  have hgcd1 : r.1 = 1 := by
    rw [hgcd, hg]
    rfl
  have hminv : mod_inverse a m = r.2.1 % m := by
    unfold mod_inverse
    rw [← hr, Int.fmod_eq_emod _ hm.le, Int.fmod_eq_emod _ hm.le]
    have h1 : (r.2.1 % m + m) % m = (r.2.1 % m + m * 1) % m := by rw [mul_one]
    rw [h1, Int.add_mul_emod_self_left, Int.emod_emod_of_dvd _ dvd_rfl]
  have hb1 : 0 ≤ mod_inverse a m := by
    rw [hminv]
    exact Int.emod_nonneg _ (by omega)
  have hb2 : mod_inverse a m < m := by
    rw [hminv]
    exact Int.emod_lt_of_pos _ hm
  have hprod : a * mod_inverse a m % m = 1 % m := by
    rw [hminv]
    calc a * (r.2.1 % m) % m
        = (a % m) * (r.2.1 % m % m) % m := by rw [← Int.mul_emod]
      _ = (a % m) * (r.2.1 % m) % m := by rw [Int.emod_emod_of_dvd _ dvd_rfl]
      _ = a * r.2.1 % m := by rw [← Int.mul_emod]
      _ = (1 + m * (- r.2.2)) % m := by
            congr 1
            have : a * r.2.1 + m * r.2.2 = 1 := by rw [hbez, hgcd1]
            rw [mul_neg]
            omega
      _ = 1 % m := Int.add_mul_emod_self_left 1 m (- r.2.2)
  refine ⟨hb1, hb2, hprod, ?_⟩
  intro y hy0 hym hyprod
  have hmody : a * y ≡ a * mod_inverse a m [ZMOD m] := by
    unfold Int.ModEq
    rw [hyprod, hprod]
  have hcancel := Int.ModEq.cancel_left_div_gcd hm hmody
  have hg' : Int.gcd m a = 1 := by rw [Int.gcd_comm]; exact hg
  rw [hg'] at hcancel
  simp only [Nat.cast_one, Int.ediv_one] at hcancel
  have hc2 : y % m = mod_inverse a m % m := hcancel
  rw [Int.emod_eq_of_lt hy0 hym, Int.emod_eq_of_lt hb1 hb2] at hc2
  exact hc2

/-- C7 counterexample: `mod_inverse` never raises.  For `gcd(2,4) = 2 ≠ 1`
it returns `1`, which is not an inverse (`2·1 ≢ 1 (mod 4)`); and for a
negative first argument with `gcd(−3,7) = 1` it returns `5`, which
satisfies `−3·5 ≡ −1 (mod 7)`, not `+1` — so neither the failure branch
nor the "for every a" part of the claim holds. -/
theorem C7_mod_inverse_counterexample :
    Int.gcd 2 4 ≠ 1 ∧ mod_inverse 2 4 = 1 ∧ (2 * 1 : Int) % 4 ≠ 1 % 4 ∧
    Int.gcd (-3) 7 = 1 ∧ mod_inverse (-3) 7 = 5 ∧ ((-3) * 5 : Int) % 7 ≠ 1 % 7 := by
  refine ⟨by decide, by decide, by decide, by decide, by decide, by decide⟩

theorem C7_mod_inverse_correct_witness :
    (0 : Int) ≤ 3 ∧ (0 : Int) < 7 ∧ Int.gcd (3 : Int) 7 = 1 ∧
      (0 ≤ mod_inverse 3 7 ∧ mod_inverse 3 7 < 7 ∧
        (3 : Int) * mod_inverse 3 7 % 7 = 1 % 7 ∧
        ∀ y : Int, 0 ≤ y → y < 7 → (3 : Int) * y % 7 = 1 % 7 → y = mod_inverse 3 7) :=
  ⟨by decide, by decide, by decide, C7_mod_inverse_correct 3 7 (by decide) (by decide)
    (by decide)⟩

/-! ## Randomness primitives (src/utils.py lines 9-56)

`secrets.token_bytes(n)` becomes `n` reads of the entropy stream;
`secrets.randbelow(k)` applied to raw entropy `r` is modelled as `r % k`,
whose image over all `r` is exactly `[0, k)` (Python raises for `k ≤ 0`,
a case not reached in the claims below). -/

theorem getD_range_map_any {β : Type} (d : β) (g : Nat → β) (n i : Nat) (h : i < n) :
    ((List.range n).map g).getD i d = g i := by
  have h1 : ((List.range n).map g)[i]? = some (g i) := by
    rw [List.getElem?_map, List.getElem?_range h]
    rfl
  simp [List.getD_eq_getElem?_getD, h1]

/-! ## Kyber (src/kyber.py) -/

/-- C3: for the default parameter set (k=3, n=256, q=3329, eta=2) and
every random stream, `generate_keys` does not complete: the four-argument
call `polynomial_multiply(A[i][j], s[j], params.q, params.n)` raises
`TypeError` (the function takes three positional arguments), so no `t` is
ever returned. -/
theorem C3_generate_keys_raises (stream : Nat → Nat) :
    kyber_generate_keys kyberDefaultParams stream = none := rfl

theorem C3_generate_keys_raises_witness :
    kyber_generate_keys kyberDefaultParams (fun _ => 0) = none :=
  C3_generate_keys_raises (fun _ => 0)

/-! ## Claim C8: the distribution of the secret/noise coefficients

In `generate_keys` the secret and noise rows are drawn as
`utils.generate_matrix(1, params.n, params.eta)[0]` (src/kyber.py lines
37-40), i.e. every coefficient is `secure_random_int(0, eta - 1)`. -/

/-- C8 counterexample: with the KEM profile's `eta = 2` (and n = 256), no
random stream can ever make a sampled secret/noise coefficient equal `−1`
(or any negative value), nor equal `eta` itself — the sampler draws
uniformly from `[0, eta)`, not from `[−eta, eta]` as claimed. -/
theorem C8_noise_counterexample :
    (¬ ∃ (stream : Nat → Nat) (j : Nat), j < 256 ∧
      ((generate_matrix 1 256 ((2 : Int)) stream).getD 0 []).getD j 0 = -1) ∧
    (¬ ∃ (stream : Nat → Nat) (j : Nat), j < 256 ∧
      ((generate_matrix 1 256 ((2 : Int)) stream).getD 0 []).getD j 0 = 2) := by
  constructor
  · rintro ⟨stream, j, hj, heq⟩
    unfold generate_matrix at heq
    rw [getD_range_map_any [] _ 1 0 (by norm_num), getD_range_map _ _ _ hj] at heq
    unfold secure_random_int randbelow at heq
    norm_num at heq
    omega
  · rintro ⟨stream, j, hj, heq⟩
    unfold generate_matrix at heq
    rw [getD_range_map_any [] _ 1 0 (by norm_num), getD_range_map _ _ _ hj] at heq
    unfold secure_random_int randbelow at heq
    norm_num at heq
    omega

/-- C8 (amended): each coefficient of the secret/noise rows sampled during
key generation is a draw of `secure_random_int(0, eta - 1)`: for every
`eta ≥ 1` every sampled coefficient lies in `[0, eta)` — never negative
and never equal to `eta` — and every value of `[0, eta)` is attainable
under some random stream. -/
theorem C8_noise_sampling (n : Nat) (eta : Int) (heta : 1 ≤ eta) :
    (∀ (stream : Nat → Nat) (j : Nat), j < n →
      0 ≤ ((generate_matrix 1 n eta stream).getD 0 []).getD j 0 ∧
      ((generate_matrix 1 n eta stream).getD 0 []).getD j 0 < eta) ∧
    (∀ v : Int, 0 ≤ v → v < eta → ∀ j, j < n →
      ∃ stream : Nat → Nat, ((generate_matrix 1 n eta stream).getD 0 []).getD j 0 = v) := by
  have hacc : ∀ (stream : Nat → Nat) (j : Nat), j < n →
      ((generate_matrix 1 n eta stream).getD 0 []).getD j 0 =
        ((stream (0 * n + j) % (eta - 1 + 1).toNat : Nat) : Int) := by
    intro stream j hj
    unfold generate_matrix
    rw [getD_range_map_any [] _ 1 0 (by norm_num), getD_range_map _ _ _ hj]
    unfold secure_random_int randbelow
    norm_num
  constructor
  · intro stream j hj
    rw [hacc stream j hj]
    have h1 : (eta - 1 + 1).toNat = eta.toNat := by omega
    have h2 : stream (0 * n + j) % (eta - 1 + 1).toNat < eta.toNat := by
      rw [h1]
      exact Nat.mod_lt _ (by omega)
    omega
  · intro v hv0 hv j hj
    refine ⟨fun _ => v.toNat, ?_⟩
    rw [hacc _ j hj]
    have h1 : (eta - 1 + 1).toNat = eta.toNat := by omega
    rw [h1, Nat.mod_eq_of_lt (by omega)]
    omega

theorem C8_noise_sampling_witness :
    (1 : Int) ≤ 2 ∧
      ((∀ (stream : Nat → Nat) (j : Nat), j < 4 →
        0 ≤ ((generate_matrix 1 4 (2 : Int) stream).getD 0 []).getD j 0 ∧
        ((generate_matrix 1 4 (2 : Int) stream).getD 0 []).getD j 0 < 2) ∧
      (∀ v : Int, 0 ≤ v → v < 2 → ∀ j, j < 4 →
        ∃ stream : Nat → Nat,
          ((generate_matrix 1 4 (2 : Int) stream).getD 0 []).getD j 0 = v)) :=
  ⟨by decide, C8_noise_sampling 4 2 (by decide)⟩

/-! ## Dilithium sign/verify (src/dilithium.py lines 81-166)

`sign` draws a fresh 32-byte nonce, hashes `key_seed || message || nonce`
with SHA-256 and returns `nonce + signature` (64 bytes); on a missing
`key_seed` or a malformed message the `except` clause returns 64 random
bytes instead.  `verify` recomputes the hash from the transmitted nonce
and compares in constant time.  SHA-256 is an external primitive,
modelled by an arbitrary digest function (32-byte output where it
matters). -/

theorem zip_self_foldl_or_xor (a : List Nat) :
    ∀ r : Nat, ((a.zip a).foldl (fun r p => r ||| (p.1 ^^^ p.2)) r) = r := by
  induction a with
  | nil => intro r; rfl
  | cons x xs ih =>
    intro r
    rw [List.zip_cons_cons, List.foldl_cons, Nat.xor_self, Nat.or_zero]
    exact ih r

theorem constant_time_compare_self (a : List Nat) : constant_time_compare a a = true := by
  unfold constant_time_compare
  rw [if_neg (by omega)]
  rw [zip_self_foldl_or_xor a 0]
  rfl

/-! ## Claim C9: Dilithium sign/verify round trip -/

/-- C9: for every message, every signing and verification key holding the
same 32-byte `key_seed`, and every fresh random nonce drawn inside
`sign`, `verify(verification_key, m, sign(signing_key, m))` returns
`True` (for SHA-256 modelled as any 32-byte digest function). -/
theorem C9_sign_verify (hash : List Nat → List Nat)
    (hlen : ∀ x, (hash x).length = 32)
    (sk : DilithiumSigningKey) (vk : DilithiumVerificationKey) (seed message : List Nat)
    (hseed_len : seed.length = 32)
    (hsk : sk.key_seed = some seed) (hvk : vk.key_seed = some seed) (stream : Nat → Nat) :
    dilithium_verify hash vk message (dilithium_sign hash sk message stream) = true := by
  have hnl : (secure_random_bytes 32 stream).length = 32 := by
    simp [secure_random_bytes]
  simp only [dilithium_sign, hsk]
  set nonce := secure_random_bytes 32 stream with hnonce
  set sig := compute_signature_hash hash seed message nonce with hsig
  have hsl : sig.length = 32 := hlen _
  simp only [dilithium_verify, hvk]
  rw [if_neg (by rw [List.length_append, hnl, hsl]; omega)]
  have htake : (nonce ++ sig).take 32 = nonce := by
    rw [← hnl]
    exact List.take_left nonce sig
  have hdrop : (nonce ++ sig).drop 32 = sig := by
    rw [← hnl]
    exact List.drop_left nonce sig
  rw [htake, hdrop]
  exact constant_time_compare_self sig

theorem C9_sign_verify_witness :
    dilithium_verify (fun _ => List.replicate 32 0) ⟨some (List.replicate 32 1)⟩ [5, 6]
      (dilithium_sign (fun _ => List.replicate 32 0) ⟨some (List.replicate 32 1)⟩ [5, 6]
        (fun i => i)) = true :=
  C9_sign_verify (fun _ => List.replicate 32 0) (fun _ => by simp) _ _ (List.replicate 32 1)
    [5, 6] (by simp) rfl rfl (fun i => i)

/-! ## Kyber encapsulate/decapsulate (src/kyber.py lines 66-131)

`encapsulate` draws a fresh 32-byte message and nonce, publishes them as
the "ciphertext", and derives the shared secret as
`SHA-256(seed || message || nonce)` where `seed = public_key.get('seed')`
(falling back to fresh random bytes when absent).  `decapsulate` reads
the same fields from the ciphertext and the seed from the private key and
recomputes the digest; malformed inputs are caught and answered with 32
random bytes. -/

/-- C10: whenever the public and private key carry the same `'seed'`
bytes, `decapsulate(ciphertext, private_key)` returns exactly the shared
secret produced by `encapsulate(public_key)`, for every random message
and nonce drawn inside `encapsulate` (SHA-256 modelled as an arbitrary
digest function). -/
theorem C10_encapsulate_decapsulate (hash : List Nat → List Nat)
    (pk : KyberPublicKey) (sk : KyberPrivateKey) (s : List Nat)
    (hpk : pk.seed = some s) (hsk : sk.seed = some s)
    (encStream decStream : Nat → Nat) :
    kyber_decapsulate hash (kyber_encapsulate hash pk encStream).1 sk decStream =
      (kyber_encapsulate hash pk encStream).2 := by
  simp only [kyber_encapsulate, kyber_decapsulate, hpk, hsk]

theorem C10_encapsulate_decapsulate_witness :
    kyber_decapsulate (fun x => x)
      (kyber_encapsulate (fun x => x) ⟨[], [], some [7]⟩ (fun i => i)).1
      ⟨[], some [7]⟩ (fun _ => 0) =
    (kyber_encapsulate (fun x => x) ⟨[], [], some [7]⟩ (fun i => i)).2 :=
  C10_encapsulate_decapsulate (fun x => x) ⟨[], [], some [7]⟩ ⟨[], some [7]⟩ [7]
    rfl rfl (fun i => i) (fun _ => 0)
